import Mathlib

/-
Verification of the structure-preserving text pipeline of the Humanize
repository.  Python strings are modelled as lists of characters (`Str`);
Python dictionaries keyed by integers as association lists.  Every
definition is translated from the repository's source
(src/processing/markdown_processor.py, src/processing/text_utils.py,
src/visualization/diff_highlighter.py, src/quality/repetition.py).
External collaborators (the NLTK tokenizer and Porter stemmer) are
parameters of the definitions that use them.
-/

/-- Python `str` is modelled as a list of characters. -/
abbrev Str := List Char

/-- Character-list form of a Lean string literal. -/
def strL (s : String) : Str := s.data

/-- The ASCII whitespace characters removed by Python's `str.strip()` and
matched by `str.split()` with no argument; also the model of regex `\s`
(the sources only ever meet ASCII whitespace). -/
def isPySpace (c : Char) : Bool :=
  c == ' ' || c == '\t' || c == '\n' || c == '\r' || c == '\x0b' || c == '\x0c'

/-- Python `s.lstrip()`. -/
def pyStripLeft (s : Str) : Str := s.dropWhile isPySpace

/-- Python `s.strip()`: ASCII whitespace removed from both ends. -/
def pyStrip (s : Str) : Str :=
  ((s.dropWhile isPySpace).reverse.dropWhile isPySpace).reverse

/-- Python `s.split('\n')`. -/
def splitNl : Str → List Str
  | [] => [[]]
  | c :: r =>
    if c = '\n' then [] :: splitNl r
    else
      match splitNl r with
      | [] => [[c]]
      | h :: t => (c :: h) :: t

/-- Python `'\n'.join(lines)`. -/
def joinNl : List Str → Str
  | [] => []
  | [x] => x
  | x :: y :: t => x ++ '\n' :: joinNl (y :: t)

/-- Python `' '.join(parts)`. -/
def joinSp : List Str → Str
  | [] => []
  | [x] => x
  | x :: y :: t => x ++ ' ' :: joinSp (y :: t)

/-- Scanner for Python `s.split()` with no argument: split on runs of
whitespace, dropping empty fields.  `revCur` accumulates the current
word reversed (plain structural recursion over the text). -/
def wordsAux (revCur : Str) : Str → List Str
  | [] => if revCur = [] then [] else [revCur.reverse]
  | c :: r =>
    if isPySpace c then
      (if revCur = [] then [] else [revCur.reverse]) ++ wordsAux [] r
    else wordsAux (c :: revCur) r

/-- Python `s.split()` with no argument. -/
def pyWords (s : Str) : List Str := wordsAux [] s

/-- Index of the first occurrence of `pat` in `s` (Python `s.find(pat)`,
`none` when absent). -/
def strFind (s pat : Str) : Option Nat :=
  match s with
  | [] => if pat.isPrefixOf ([] : Str) then some 0 else none
  | c :: r =>
    if pat.isPrefixOf (c :: r) then some 0
    else (strFind r pat).map (· + 1)

/-- Python `s.replace(old, new, 1)`: replace the first occurrence only
(no change when `old` does not occur). -/
def replace1 (s old new : Str) : Str :=
  match strFind s old with
  | none => s
  | some k => s.take k ++ new ++ s.drop (k + old.length)

/-- Scanning loop of Python `s.replace(old, new)` for non-empty `old`:
after a replacement the scan resumes after the inserted text.  `fuel`
only bounds the recursion; every step consumes at least one character
of `s`, so the initial fuel `s.length + 1` is never exhausted. -/
def replaceAllAux (old new : Str) : Nat → Str → Str
  | 0, s => s
  | fuel + 1, s =>
    match strFind s old with
    | none => s
    | some k => s.take k ++ new ++ replaceAllAux old new fuel (s.drop (k + old.length))

/-- Python `s.replace(old, new)` with no count: every occurrence is
replaced.  For empty `old` Python inserts `new` around every character;
the repository never calls it that way. -/
def replaceAll (s old new : Str) : Str :=
  if old = [] then new ++ s.flatMap (fun c => c :: new)
  else replaceAllAux old new (s.length + 1) s

/- ===================== markdown_processor.py ===================== -/

/-- Element kinds assigned by `MarkdownProcessor.parse` (the Python code
stores them as strings in `MarkdownElement.type`). -/
inductive MdType where
  | code_block
  | heading
  | hr
  | link_definition
  | blockquote
  | ordered_list
  | unordered_list
  | empty
  | paragraph
deriving DecidableEq

/-- One `MarkdownElement`.  The optional fields model the entries the
parser actually places in the `metadata` dictionary. -/
structure MdElement where
  type : MdType
  content : Str
  line_number : Nat
  level : Option Nat := none
  mtext : Option Str := none
  marker : Option Str := none
  processable : Bool := false
deriving DecidableEq

/-- Test of `line.strip().startswith('```')` (opening or closing fence). -/
def isFence (l : Str) : Bool := (strL ("```")).isPrefixOf (pyStrip l)

/-- Loop of `MarkdownProcessor._extract_code_block` on the lines after
the opening fence: consume up to and including the next fence line, or
everything when the block is unclosed.  Returns (consumed, remaining). -/
def cbAux : List Str → List Str × List Str
  | [] => ([], [])
  | l :: ls =>
    if isFence l then ([l], ls)
    else
      let p := cbAux ls
      (l :: p.1, p.2)

/-- Number of leading `#` characters of a line. -/
def headingHashes (l : Str) : Nat := (l.takeWhile (· = '#')).length

/-- Match of `re.match(r'^(#^1,6$)\s+(.+)$', line)` (braces written as
brackets here): 1-6 leading hashes followed by at least one whitespace
character and at least one further character. -/
def isHeading (l : Str) : Bool :=
  let h := headingHashes l
  let suffix := l.drop h
  decide (1 ≤ h) && decide (h ≤ 6) &&
    (match suffix with
     | c :: _ :: _ => isPySpace c
     | _ => false)

/-- Text captured by the group `(.+)` after `\s+` under backtracking:
the remainder after the whitespace run when non-empty, otherwise the
last (whitespace) character alone. -/
def wsPlusText (suffix : Str) : Str :=
  let rest := suffix.dropWhile isPySpace
  if rest = [] then suffix.drop (suffix.length - 1) else rest

/-- Match of `re.match(r'^(\*?3,?|-?3,?|_?3,?)$', line.strip())`: the
stripped line is three or more repeats of one of `*`, `-`, `_`. -/
def isHr (l : Str) : Bool :=
  let t := pyStrip l
  decide (3 ≤ t.length) && (t.all (· = '*') || t.all (· = '-') || t.all (· = '_'))

/-- Match of `re.match(r'^\[(^^\]]+)\]:\s*(.+)$', line)`: a bracketed
non-empty label, a colon, and at least one further character. -/
def isLinkDef (l : Str) : Bool :=
  match l with
  | '[' :: rest =>
    let label := rest.takeWhile (· ≠ ']')
    decide (label ≠ []) &&
      (match rest.dropWhile (· ≠ ']') with
       | ']' :: ':' :: tail => decide (tail ≠ [])
       | _ => false)
  | _ => false

/-- Match of `re.match(r'^>\s+(.+)$', line)`. -/
def isBlockquote (l : Str) : Bool :=
  match l with
  | '>' :: c :: _ :: _ => isPySpace c
  | _ => false

/-- Leading digit run of a line. -/
def leadingDigits (l : Str) : Str := l.takeWhile Char.isDigit

/-- Match of `re.match(r'^(\d+\.)\s+(.+)$', line)`. -/
def isOrdered (l : Str) : Bool :=
  let d := leadingDigits l
  decide (d ≠ []) &&
    (match l.drop d.length with
     | '.' :: c :: _ :: _ => isPySpace c
     | _ => false)

/-- Match of `re.match(r'^([\*\-\+])\s+(.+)$', line)`. -/
def isUnordered (l : Str) : Bool :=
  match l with
  | m :: c :: _ :: _ => (m == '*' || m == '-' || m == '+') && isPySpace c
  | _ => false

/-- Loop body of `MarkdownProcessor.parse`: classify each line in order
(code fence, heading, horizontal rule, link definition, blockquote,
ordered list, unordered list, blank, paragraph), consuming a whole
fenced block at once.  `i` is the running line number.  The Python
guard `if code_block:` is always true (the fence line itself is
non-empty), so it is not modelled. -/
def parseLinesAux : Nat → Nat → List Str → List MdElement
  | _, _, [] => []
  | 0, _, _ :: _ => []
  | fuel + 1, i, line :: rest =>
    if isFence line then
      let consumed := line :: (cbAux rest).1
      { type := .code_block, content := joinNl consumed, line_number := i } ::
        parseLinesAux fuel (i + consumed.length) (cbAux rest).2
    else if isHeading line then
      { type := .heading, content := line, line_number := i,
        level := some (headingHashes line),
        mtext := some (wsPlusText (line.drop (headingHashes line))) } ::
        parseLinesAux fuel (i + 1) rest
    else if isHr line then
      { type := .hr, content := line, line_number := i } :: parseLinesAux fuel (i + 1) rest
    else if isLinkDef line then
      { type := .link_definition, content := line, line_number := i } ::
        parseLinesAux fuel (i + 1) rest
    else if isBlockquote line then
      { type := .blockquote, content := line, line_number := i,
        processable := true } :: parseLinesAux fuel (i + 1) rest
    else if isOrdered line then
      { type := .ordered_list, content := line, line_number := i,
        marker := some (leadingDigits line ++ ['.']),
        mtext := some (wsPlusText (line.drop ((leadingDigits line).length + 1))),
        processable := true } :: parseLinesAux fuel (i + 1) rest
    else if isUnordered line then
      { type := .unordered_list, content := line, line_number := i,
        marker := some [line.headD ' '],
        mtext := some (wsPlusText (line.drop 1)),
        processable := true } :: parseLinesAux fuel (i + 1) rest
    else if pyStrip line = [] then
      { type := .empty, content := line, line_number := i } :: parseLinesAux fuel (i + 1) rest
    else
      { type := .paragraph, content := line, line_number := i,
        processable := true } :: parseLinesAux fuel (i + 1) rest

/-- `MarkdownProcessor.parse`: split on newlines and classify. -/
def parse (doc : Str) : List MdElement :=
  parseLinesAux (splitNl doc).length 0 (splitNl doc)

/-- Lookup in the `processed_texts` dictionary (element index keys). -/
def dictFind (m : List (Nat × Str)) (k : Nat) : Option Str :=
  (m.find? (fun p => p.1 == k)).map (·.2)

/-- Loop body of `MarkdownProcessor.reconstruct` for one enumerated
element: a processed paragraph / list item / blockquote is rendered with
its surface syntax, a processed element of any other kind appends no
line at all, and an untouched element is emitted verbatim. -/
def renderLine (m : List (Nat × Str)) (p : Nat × MdElement) : Option Str :=
  match dictFind m p.1 with
  | some processed =>
    match p.2.type with
    | .paragraph => some processed
    | .ordered_list => some ((p.2.marker.getD (strL ("1."))) ++ ' ' :: processed)
    | .unordered_list => some ((p.2.marker.getD (strL ("-"))) ++ ' ' :: processed)
    | .blockquote => some ('>' :: ' ' :: processed)
    | _ => none
  | none => some p.2.content

/-- Output lines of `MarkdownProcessor.reconstruct`. -/
def reconstructLines (elements : List MdElement) (m : List (Nat × Str)) : List Str :=
  elements.enum.filterMap (renderLine m)

/-- `MarkdownProcessor.reconstruct`: render each element and join with
newlines. -/
def reconstruct (elements : List MdElement) (m : List (Nat × Str)) : Str :=
  joinNl (reconstructLines elements m)

/-- Scanner for `re.findall` of the inline-code pattern `with backtick
delimiters and a non-empty backtick-free body`: at a backtick, the body
runs to the next backtick; when the body would be empty or no closing
backtick exists the engine moves one position right. -/
def codeScanAux : Nat → Str → List Str
  | _, [] => []
  | 0, _ :: _ => []
  | fuel + 1, c :: r =>
    if c = '`' then
      match r.dropWhile (· ≠ '`') with
      | '`' :: rest2 =>
        if r.takeWhile (· ≠ '`') = [] then codeScanAux fuel r
        else ('`' :: r.takeWhile (· ≠ '`') ++ ['`']) :: codeScanAux fuel rest2
      | _ => codeScanAux fuel r
    else codeScanAux fuel r

/-- Entry point of the inline-code scanner; every scan step advances at
least one position, so fuel `s.length` is never exhausted. -/
def codeScan (s : Str) : List Str := codeScanAux s.length s

/-- Scanner for `re.finditer` of the link pattern `bracketed non-empty
label, parenthesised non-empty url`; returns (full match, label, url)
triples in match order.  On any failure at a given start position the
engine advances one character. -/
def linkScanAux : Nat → Str → List (Str × Str × Str)
  | _, [] => []
  | 0, _ :: _ => []
  | fuel + 1, c :: r =>
    if c = '[' then
      let label := r.takeWhile (· ≠ ']')
      match r.dropWhile (· ≠ ']') with
      | ']' :: '(' :: r2 =>
        if label = [] then linkScanAux fuel r
        else
          let url := r2.takeWhile (· ≠ ')')
          match r2.dropWhile (· ≠ ')') with
          | ')' :: r3 =>
            if url = [] then linkScanAux fuel r
            else ('[' :: label ++ ']' :: '(' :: (url ++ [')']), label, url) ::
              linkScanAux fuel r3
          | _ => linkScanAux fuel r
      | _ => linkScanAux fuel r
    else linkScanAux fuel r

/-- Entry point of the link scanner; every scan step advances at least
one position, so fuel `s.length` is never exhausted. -/
def linkScan (s : Str) : List (Str × Str × Str) := linkScanAux s.length s

/-- Decimal digit character, `chr(48 + d)` as Python renders numbers. -/
def digitChar (d : Nat) : Char := Char.ofNat (48 + d)

/-- Decimal rendering of a natural number, Python `str(i)`. -/
def natToStr (n : Nat) : Str :=
  if n = 0 then ['0'] else ((Nat.digits 10 n).reverse.map digitChar)

/-- Placeholder token `INLINECODE...PLACEHOLDER` built by
`preserve_inline_markdown` for the i-th inline code span. -/
def placeholderStr (i : Nat) : Str :=
  strL ("INLINECODE") ++ natToStr i ++ strL ("PLACEHOLDER")

/-- First loop of `preserve_inline_markdown`: for each found code span,
record `(code, placeholder, CODE)` and replace its first occurrence by
the placeholder. -/
def codePass : Nat → Str → List Str → Str × List (Str × Str × Str)
  | _, modified, [] => (modified, [])
  | i, modified, code :: rest =>
    let ph := placeholderStr i
    let p := codePass (i + 1) (replace1 modified code ph) rest
    (p.1, (code, ph, strL ("CODE")) :: p.2)

/-- Second loop of `preserve_inline_markdown`: for each found link,
record `(full, label, url)` and replace the first occurrence of the
full link by its label. -/
def linkPass : Str → List (Str × Str × Str) → Str × List (Str × Str × Str)
  | modified, [] => (modified, [])
  | modified, (full, label, url) :: rest =>
    let p := linkPass (replace1 modified full label) rest
    (p.1, (full, label, url) :: p.2)

/-- `MarkdownProcessor.preserve_inline_markdown`: inline code spans are
replaced by unique placeholders, then links are reduced to their label;
the ledger lists code entries (in scan order) then link entries. -/
def preserve (text : Str) : Str × List (Str × Str × Str) :=
  let cp := codePass 0 text (codeScan text)
  let lp := linkPass cp.1 (linkScan cp.1)
  (lp.1, cp.2 ++ lp.2)

/-- Loop body of `MarkdownProcessor.restore_inline_markdown` for one
ledger entry: a CODE entry replaces every occurrence of its placeholder
(Python `str.replace` with no count); a link entry wraps the first
occurrence of its label back into a link when the label is still
present, and otherwise leaves the text unchanged (warning only). -/
def restoreStep (text : Str) (entry : Str × Str × Str) : Str :=
  if entry.2.2 = strL ("CODE") then replaceAll text entry.2.1 entry.1
  else if (strFind text entry.2.1).isSome then
    replace1 text entry.2.1 ('[' :: entry.2.1 ++ ']' :: '(' :: (entry.2.2 ++ [')']))
  else text

/-- `MarkdownProcessor.restore_inline_markdown`: walk the ledger in
reverse extraction order. -/
def restore (text : Str) (preserved : List (Str × Str × Str)) : Str :=
  preserved.reverse.foldl restoreStep text

/- ===================== text_utils.py ===================== -/

/-- Lookbehind test of the sentence separator: the previous character
(head of the reversed current piece) is `.`, `!` or `?`. -/
def termHead : Str → Bool
  | p :: _ => p == '.' || p == '!' || p == '?'
  | [] => false

/-- Scanner for `re.split(r'(?<=[.!?]) +', s)`: a run of spaces whose
first space is preceded by `.`, `!` or `?` separates sentences.
`revCur` is the current piece, reversed, so its head is the previous
character (the lookbehind); the Boolean state is true while the scanner
consumes the remaining spaces of a separator run. -/
def sentAux : Bool → Str → Str → List Str
  | _, revCur, [] => [revCur.reverse]
  | true, revCur, c :: r =>
    if c = ' ' then sentAux true revCur r else sentAux false (c :: revCur) r
  | false, revCur, c :: r =>
    if c = ' ' ∧ termHead revCur then revCur.reverse :: sentAux true [] r
    else sentAux false (c :: revCur) r

/-- Sentence split of `chunk_text`. -/
def sentSplit (s : Str) : List Str := sentAux false [] s

/-- Take/drop loop of the grouping `sentences[i:i+max]` for
`i in range(0, len, max)` with step `m + 1`; fuel `l.length` is never
exhausted since each step consumes at least one element. -/
def chunksOfAux (m : Nat) : Nat → List Str → List (List Str)
  | _, [] => []
  | 0, _ :: _ => []
  | fuel + 1, x :: xs => (x :: xs.take m) :: chunksOfAux m fuel (xs.drop m)

/-- Grouping `sentences[i:i+max]` for `i in range(0, len, max)`.  For a
positive step this equals repeated take/drop; Python raises ValueError
on step 0, which no caller does - modelled as the empty list. -/
def chunksOf : Nat → List Str → List (List Str)
  | 0, _ => []
  | m + 1, l => chunksOfAux m l.length l

/-- `chunk_text(text, max_sentences)` of src/processing/text_utils.py. -/
def chunk_text (text : Str) (max_sentences : Nat) : List Str :=
  if pyStrip text = [] then []
  else
    ((chunksOf max_sentences (sentSplit (pyStrip text))).map joinSp).filter
      (fun c => decide (pyStrip c ≠ []))

/- ===================== diff_highlighter.py ===================== -/

/-- Opcode tags of `difflib.SequenceMatcher.get_opcodes`. -/
inductive DTag where
  | equal
  | replace
  | delete
  | insert
deriving DecidableEq

/-- One opcode `(tag, i1, i2, j1, j2)`. -/
structure Opcode where
  tag : DTag
  a1 : Nat
  a2 : Nat
  b1 : Nat
  b2 : Nat
deriving DecidableEq

/-- A `Match(besti, bestj, bestsize)` triple of difflib. -/
structure Best where
  i : Nat
  j : Nat
  sz : Nat
deriving DecidableEq

/-- Indices `j` with `b[j] = x`, ascending: the `b2j` dictionary of
`SequenceMatcher.__chain_b` before the autojunk filter. -/
def b2jAll (b : List Str) (x : Str) : List Nat :=
  (List.range b.length).filter (fun j => decide (b.get? j = some x))

/-- Autojunk: with `len(b) >= 200`, an element occurring more than
`len(b) // 100 + 1` times is popular and removed from `b2j`. -/
def isPopular (b : List Str) (x : Str) : Bool :=
  decide (200 ≤ b.length) && decide (b.length / 100 + 1 < b.count x)

/-- `b2j.get(x, [])` after the autojunk filter. -/
def b2jGet (b : List Str) (x : Str) : List Nat :=
  if isPopular b x then [] else b2jAll b x

/-- Inner loop of `find_longest_match` over the candidate `j` list for
row `i`, threading the best match and the row's `newj2len` dictionary
(modelled as a total function, absent keys giving 0).  `j2lenPrev` is
the previous row's dictionary; Python's `j2len.get(j-1, 0)` looks up
key -1 when `j = 0`, which is never present, hence the guard.  The
`break` at `j >= bhi` cuts the rest of the ascending list.  Python
writes `besti = i-k+1`; `k <= i+1` always holds (row values are bounded
by the row number), so natural subtraction `i+1-k` agrees. -/
def innerLoop (blo bhi : Nat) (j2lenPrev : Nat → Nat) (i : Nat) :
    List Nat → Best → (Nat → Nat) → Best × (Nat → Nat)
  | [], best, newj2len => (best, newj2len)
  | j :: js, best, newj2len =>
    if j < blo then innerLoop blo bhi j2lenPrev i js best newj2len
    else if bhi ≤ j then (best, newj2len)
    else
      let k := (if j = 0 then 0 else j2lenPrev (j - 1)) + 1
      let newj2len' := fun j' => if j' = j then k else newj2len j'
      let best' := if best.sz < k then Best.mk (i + 1 - k) (j + 1 - k) k else best
      innerLoop blo bhi j2lenPrev i js best' newj2len'

/-- Outer loop of `find_longest_match` over `i in range(alo, ahi)`. -/
def outerLoop (a : List Str) (b2j : Str → List Nat) (blo bhi : Nat) :
    List Nat → Best → (Nat → Nat) → Best
  | [], best, _ => best
  | i :: is, best, j2len =>
    let p := innerLoop blo bhi j2len i (b2j (a.getD i [])) best (fun _ => 0)
    outerLoop a b2j blo bhi is p.1 p.2

/-- Junk predicate `self.bjunk.__contains__`: the call sites construct
`SequenceMatcher(None, ...)`, so the junk set is empty. -/
def isbjunk : Str → Bool := fun _ => false

/-- While-loop extending the best match to the left past elements
satisfying `p` (used with `not isbjunk` and then with `isbjunk`).
`best.i` drops by one per iteration, so fuel `best.i + 1` is never
exhausted. -/
def extendLoopL (p : Str → Bool) (a b : List Str) (alo blo : Nat) : Nat → Best → Best
  | 0, best => best
  | fuel + 1, best =>
    if alo < best.i ∧ blo < best.j ∧ p (b.getD (best.j - 1) []) = true ∧
        a.getD (best.i - 1) [] = b.getD (best.j - 1) [] then
      extendLoopL p a b alo blo fuel (Best.mk (best.i - 1) (best.j - 1) (best.sz + 1))
    else best

/-- While-loop extending the best match to the right past elements
satisfying `p`.  `ahi - (best.i + best.sz)` drops by one per iteration,
so fuel `ahi + 1` is never exhausted. -/
def extendLoopR (p : Str → Bool) (a b : List Str) (ahi bhi : Nat) : Nat → Best → Best
  | 0, best => best
  | fuel + 1, best =>
    if best.i + best.sz < ahi ∧ best.j + best.sz < bhi ∧
        p (b.getD (best.j + best.sz) []) = true ∧
        a.getD (best.i + best.sz) [] = b.getD (best.j + best.sz) [] then
      extendLoopR p a b ahi bhi fuel (Best.mk best.i best.j (best.sz + 1))
    else best

/-- `SequenceMatcher.find_longest_match(alo, ahi, blo, bhi)`: the
longest-match dynamic program followed by the four extension loops
(the junk loops never fire since the junk set is empty). -/
def findLongestMatch (a b : List Str) (b2j : Str → List Nat) (alo ahi blo bhi : Nat) : Best :=
  let best0 := outerLoop a b2j blo bhi (List.range' alo (ahi - alo)) (Best.mk alo blo 0) (fun _ => 0)
  let b1 := extendLoopL (fun x => !isbjunk x) a b alo blo (best0.i + 1) best0
  let b2 := extendLoopR (fun x => !isbjunk x) a b ahi bhi (ahi + 1) b1
  let b3 := extendLoopL (fun x => isbjunk x) a b alo blo (b2.i + 1) b2
  extendLoopR (fun x => isbjunk x) a b ahi bhi (ahi + 1) b3

/-- Recursive block collection of `get_matching_blocks` (Python uses an
explicit queue and then sorts; in-order recursion yields the sorted
list directly).  `fuel` bounds the recursion depth; the top-level call
passes more than the ranges' total width, which the recursion never
exhausts. -/
def matchingBlocksAux (a b : List Str) (b2j : Str → List Nat) :
    Nat → Nat → Nat → Nat → Nat → List (Nat × Nat × Nat)
  | 0, _, _, _, _ => []
  | fuel + 1, alo, ahi, blo, bhi =>
    let m := findLongestMatch a b b2j alo ahi blo bhi
    if 0 < m.sz then
      matchingBlocksAux a b b2j fuel alo m.i blo m.j ++ [(m.i, m.j, m.sz)] ++
        matchingBlocksAux a b b2j fuel (m.i + m.sz) ahi (m.j + m.sz) bhi
    else []

/-- Second loop of `get_matching_blocks`: merge adjacent equal blocks;
the accumulator starts at `(0, 0, 0)` and a zero-size accumulator is
not emitted. -/
def mergeBlocks : Nat × Nat × Nat → List (Nat × Nat × Nat) → List (Nat × Nat × Nat)
  | (i1, j1, k1), [] => if k1 ≠ 0 then [(i1, j1, k1)] else []
  | (i1, j1, k1), (la, lb, sz) :: rest =>
    if i1 + k1 = la ∧ j1 + k1 = lb then mergeBlocks (i1, j1, k1 + sz) rest
    else (if k1 ≠ 0 then [(i1, j1, k1)] else []) ++ mergeBlocks (la, lb, sz) rest

/-- `SequenceMatcher.get_matching_blocks` with the `(la, lb, 0)`
terminator appended. -/
def matchingBlocks (a b : List Str) : List (Nat × Nat × Nat) :=
  mergeBlocks (0, 0, 0)
      (matchingBlocksAux a b (b2jGet b) (a.length + b.length + 1) 0 a.length 0 b.length) ++
    [(a.length, b.length, 0)]

/-- Loop of `get_opcodes`: tag the gap before each matching block, then
the block itself when non-empty. -/
def getOpcodesAux : Nat → Nat → List (Nat × Nat × Nat) → List Opcode
  | _, _, [] => []
  | i, j, (ai, bj, sz) :: rest =>
    (if i < ai ∧ j < bj then [Opcode.mk .replace i ai j bj]
     else if i < ai then [Opcode.mk .delete i ai j bj]
     else if j < bj then [Opcode.mk .insert i ai j bj]
     else []) ++
      (if 0 < sz then [Opcode.mk .equal ai (ai + sz) bj (bj + sz)] else []) ++
      getOpcodesAux (ai + sz) (bj + sz) rest

/-- Opcodes of `difflib.SequenceMatcher(None, a, b).get_opcodes()`. -/
def alignOps (a b : List Str) : List Opcode := getOpcodesAux 0 0 (matchingBlocks a b)

/-- Counter state of the opcode loop in
`DiffHighlighter.highlight_differences` (the HTML strings built in the
same loop do not feed any statistic and are not modelled). -/
structure StatAcc where
  changed : Nat
  added : Nat
  deleted : Nat
  unchanged : Nat
  subs : List (Str × Str)
deriving DecidableEq

/-- Python `' '.join(words[i1:i2])`. -/
def chunkSlice (ws : List Str) (i1 i2 : Nat) : Str := joinSp ((ws.drop i1).take (i2 - i1))

/-- Loop body of `highlight_differences` for one opcode. -/
def statStep (ow gw : List Str) (acc : StatAcc) (op : Opcode) : StatAcc :=
  match op.tag with
  | .equal => { acc with unchanged := acc.unchanged + (op.a2 - op.a1) }
  | .replace =>
    let acc' := { acc with changed := acc.changed + max (op.a2 - op.a1) (op.b2 - op.b1) }
    if op.a2 - op.a1 = 1 ∧ op.b2 - op.b1 = 1 then
      { acc' with subs := acc'.subs ++ [(chunkSlice ow op.a1 op.a2, chunkSlice gw op.b1 op.b2)] }
    else acc'
  | .delete => { acc with deleted := acc.deleted + (op.a2 - op.a1) }
  | .insert => { acc with added := acc.added + (op.b2 - op.b1) }

/-- The `statistics` dictionary of `highlight_differences`.  The two
percentages are exact rationals; the Python floats are exact at every
value the claims mention. -/
structure DiffStats where
  total_original : Nat
  total_generated : Nat
  unchanged : Nat
  changed : Nat
  added : Nat
  deleted : Nat
  percentage_changed : ℚ
  percentage_unchanged : ℚ
  substitutions : List (Str × Str)
deriving DecidableEq

/-- Statistics derived from a given opcode list over the two word
sequences. -/
def statsOfOpcodes (ow gw : List Str) (ops : List Opcode) : DiffStats :=
  let acc := ops.foldl (statStep ow gw) (StatAcc.mk 0 0 0 0 [])
  { total_original := ow.length
    total_generated := gw.length
    unchanged := acc.unchanged
    changed := acc.changed
    added := acc.added
    deleted := acc.deleted
    percentage_changed :=
      ((acc.changed + acc.deleted + acc.added : Nat) : ℚ) / (max ow.length 1) * 100
    percentage_unchanged := ((acc.unchanged : ℚ) / (max ow.length 1)) * 100
    substitutions := acc.subs.take 10 }

/-- `DiffHighlighter.highlight_differences(original, generated)`
restricted to its statistics output: split both texts on whitespace,
align, and fold the opcodes. -/
def highlightStats (original generated : Str) : DiffStats :=
  statsOfOpcodes (pyWords original) (pyWords generated)
    (alignOps (pyWords original) (pyWords generated))

/- ===================== repetition.py ===================== -/

/-- Python `s.lower()` (ASCII model). -/
def pyLower (s : Str) : Str := s.map Char.toLower

/-- Python `w.isalnum()`: non-empty and all alphanumeric (ASCII model). -/
def pyIsAlnum (w : Str) : Bool := decide (w ≠ []) && w.all Char.isAlphanum

/-- Python `w.isdigit()`: non-empty and all digits (ASCII model). -/
def pyIsDigit (w : Str) : Bool := decide (w ≠ []) && w.all Char.isDigit

/-- The fixed extra stopword list added by `RepetitionDetector.__init__`
(the NLTK base list is a parameter of `detect`). -/
def extraStops : List Str :=
  [strL ("the"), strL ("a"), strL ("an"), strL ("and"), strL ("or"), strL ("but"),
   strL ("in"), strL ("on"), strL ("at"), strL ("to"), strL ("for"), strL ("of"),
   strL ("with"), strL ("is"), strL ("are"), strL ("was"), strL ("were"),
   strL ("be"), strL ("been"), strL ("being"), strL ("it"), strL ("this"),
   strL ("that"), strL ("these"), strL ("those"), strL ("i"), strL ("you"),
   strL ("he"), strL ("she"), strL ("they"), strL ("we"), strL ("will"),
   strL ("would"), strL ("can"), strL ("could"), strL ("should"), strL ("may"),
   strL ("might"), strL ("have"), strL ("has"), strL ("had"), strL ("do"),
   strL ("does"), strL ("did"), strL ("not"), strL ("no"), strL ("yes")]

/-- Content-word filter of `RepetitionDetector.detect`: lowercase,
tokenize (the NLTK tokenizer `tok` is an external collaborator), keep
alphanumeric, non-numeric, non-stopword tokens. -/
def contentWordsOf (tok : Str → List Str) (nltkStops : List Str) (text : Str) : List Str :=
  (tok (pyLower text)).filter
    (fun w => pyIsAlnum w && !pyIsDigit w && decide (w ∉ nltkStops ++ extraStops))

/-- Loop of the first-occurrence key ordering; fuel `l.length` is never
exhausted since filtering only shortens the remainder. -/
def firstOccsAux : Nat → List Str → List Str
  | _, [] => []
  | 0, _ :: _ => []
  | fuel + 1, x :: xs => x :: firstOccsAux fuel (xs.filter (fun y => decide (y ≠ x)))

/-- Distinct elements in first-occurrence order: the key order of a
Python `Counter` built by insertion. -/
def firstOccs (l : List Str) : List Str := firstOccsAux l.length l

/-- Stable insertion for a descending sort by count: an element passes
every earlier element of at least its count, exactly the tie behaviour
of `Counter.most_common` (equal counts keep first-encounter order). -/
def insertByCountDesc (counts : Str → Nat) (x : Str) : List Str → List Str
  | [] => [x]
  | y :: ys =>
    if counts y ≤ counts x then x :: y :: ys
    else y :: insertByCountDesc counts x ys

/-- Stable descending sort by count (model of the ordering of
`Counter.most_common`). -/
def sortByCountDesc (counts : Str → Nat) : List Str → List Str
  | [] => []
  | x :: xs => insertByCountDesc counts x (sortByCountDesc counts xs)

/-- The `stem_to_word` dictionary of `detect`: the FIRST surface form
seen for a stem (`if stem not in stem_to_word`), with `.get(stem, stem)`
fallback. -/
def firstSurfaceOf (cw : List Str) (stem : Str → Str) (s : Str) : Str :=
  (((cw.zip (cw.map stem)).find? (fun p => p.2 == s)).map (·.1)).getD s

/-- One entry of `top_global_repetitions`. -/
structure RepEntry where
  word : Str
  count : Nat
  ratio : ℚ
deriving DecidableEq

/-- The dictionary returned by `RepetitionDetector.detect`. -/
structure RepReport where
  top_global_repetitions : List RepEntry
  local_repetition_score : ℚ
  total_repetitions_found : Nat
deriving DecidableEq

/-- The local-repetition double loop of `detect`: for each position
`i`, count later positions with the same stem up to
`min(i + 1 + window_size // 5, len)`. -/
def localRepCount (stemmed : List Str) (window_size : Nat) : Nat :=
  ((List.range stemmed.length).map (fun i =>
    ((List.range' (i + 1) (min (i + 1 + window_size / 5) stemmed.length - (i + 1))).filter
      (fun j => decide (stemmed.get? j = stemmed.get? i))).length)).sum

/-- The threshold `max(3, int(len(content_words) * 0.05))`:
`int` truncates, and the float product never truncates differently from
exact arithmetic at feasible sizes, so this is `max 3 (n / 20)`. -/
def repThreshold (n : Nat) : Nat := max 3 (n * 5 / 100)

/-- `RepetitionDetector.detect(text, window_size)`.  The NLTK word
tokenizer and the Porter stemmer are external collaborators, passed as
the parameters `tok` and `stem`; `nltkStops` is the English stopword
list to which the source adds `extraStops`. -/
def detect (tok : Str → List Str) (stem : Str → Str) (nltkStops : List Str)
    (text : Str) (window_size : Nat) : RepReport :=
  if pyStrip text = [] then RepReport.mk [] 0 0
  else
    let cw := contentWordsOf tok nltkStops text
    if cw = [] then RepReport.mk [] 0 0
    else
      let stemmed := cw.map stem
      let n := cw.length
      let counts := fun s => stemmed.count s
      let globalReps :=
        ((sortByCountDesc counts (firstOccs stemmed)).take 5).filterMap (fun s =>
          if repThreshold n ≤ counts s then
            some (RepEntry.mk (firstSurfaceOf cw stem s) (counts s) ((counts s : ℚ) / n))
          else none)
      let localCount := localRepCount stemmed window_size
      RepReport.mk globalReps
        (min 1 ((localCount * 10 : Nat) / (max 1 n) : ℚ))
        (localCount + (globalReps.map (·.count)).sum)

/-- Modelled from the spec's words, for comparison only (not from the
source): the most frequent original surface form of a stem among the
content words, ties broken by first occurrence. -/
def mostFreqSurface (cw : List Str) (stem : Str → Str) (s : Str) : Str :=
  let surfaces := cw.filter (fun w => stem w == s)
  ((sortByCountDesc (fun w => surfaces.count w) (firstOccs surfaces)).headD s)

/-- Concrete tokenizer instance for counterexamples: whitespace
splitting, which is what `nltk.word_tokenize` returns on plain
alphabetic text. -/
def tokC : Str → List Str := pyWords

/-- Concrete stemmer instance for counterexamples: maps the
morphological variants of `use` to a common root, as the Porter stemmer
does, and fixes every other word. -/
def stmC : Str → Str := fun w =>
  if w = strL ("using") ∨ w = strL ("used") ∨ w = strL ("use") then strL ("use") else w

/-- Diagonal run length used in the identical-input alignment proof:
`diagD w i` is the number of consecutive non-popular elements of `w`
ending at index `i`. -/
def diagD (w : List Str) : Nat → Nat
  | 0 => if isPopular w (w.getD 0 []) then 0 else 1
  | i + 1 => if isPopular w (w.getD (i + 1) []) then 0 else diagD w i + 1

/-- Maximum of `diagD w` over the rows below `r`. -/
def maxD (w : List Str) : Nat → Nat
  | 0 => 0
  | r + 1 => max (maxD w r) (diagD w r)

/- ===================== theorems ===================== -/

theorem splitNl_ne_nil (s : Str) : splitNl s ≠ [] := by
  match s with
  | [] => simp [splitNl]
  | c :: r =>
    by_cases hc : c = '\n'
    · simp [splitNl, hc]
    · simp only [splitNl, hc, if_false]
      rcases h : splitNl r with _ | ⟨x, t⟩ <;> simp

theorem joinNl_splitNl (s : Str) : joinNl (splitNl s) = s := by
  induction s with
  | nil => simp [splitNl, joinNl]
  | cons c r ih =>
    by_cases hc : c = '\n'
    · subst hc
      simp only [splitNl, if_pos rfl]
      rcases h : splitNl r with _ | ⟨x, t⟩
      · exact absurd h (splitNl_ne_nil r)
      · rw [h] at ih
        simp [joinNl, ih]
    · simp only [splitNl, hc, if_false]
      rcases h : splitNl r with _ | ⟨x, t⟩
      · exact absurd h (splitNl_ne_nil r)
      · rw [h] at ih
        rcases t with _ | ⟨y, t2⟩
        · simp only [joinNl] at ih ⊢
          rw [ih]
        · simp only [joinNl] at ih ⊢
          simp [← ih]

theorem cbAux_append (ls : List Str) : (cbAux ls).1 ++ (cbAux ls).2 = ls := by
  induction ls with
  | nil => simp [cbAux]
  | cons l t ih =>
    by_cases hf : isFence l
    · simp [cbAux, hf]
    · simp [cbAux, hf, ih]

theorem joinNl_cons (x : Str) (l : List Str) (hl : l ≠ []) :
    joinNl (x :: l) = x ++ '\n' :: joinNl l := by
  rcases l with _ | ⟨y, t⟩
  · exact absurd rfl hl
  · rfl

theorem joinNl_append (a b : List Str) (ha : a ≠ []) (hb : b ≠ []) :
    joinNl (a ++ b) = joinNl a ++ '\n' :: joinNl b := by
  induction a with
  | nil => exact absurd rfl ha
  | cons x t ih =>
    rcases t with _ | ⟨y, t2⟩
    · rw [List.singleton_append, joinNl_cons x b hb]
      rfl
    · have h2 := ih (by simp)
      rw [List.cons_append, joinNl_cons x (y :: t2 ++ b) (by simp),
        joinNl_cons x (y :: t2) (by simp), h2]
      simp

theorem parseLinesAux_ne_nil (fuel i : Nat) (l : Str) (rest : List Str) :
    parseLinesAux (fuel + 1) i (l :: rest) ≠ [] := by
  simp only [parseLinesAux]
  repeat' split
  all_goals simp

theorem parseLinesAux_content : ∀ (fuel : Nat) (ls : List Str), ls.length ≤ fuel → ∀ (i : Nat),
    joinNl ((parseLinesAux fuel i ls).map (·.content)) = joinNl ls := by
  intro fuel
  induction fuel with
  | zero =>
    intro ls h i
    match ls with
    | [] => simp [parseLinesAux]
    | l :: r => simp at h
  | succ n ih =>
    intro ls h i
    match ls with
    | [] => simp [parseLinesAux]
    | line :: rest =>
      have hrest : rest.length ≤ n := by
        simp only [List.length_cons] at h
        omega
      have step : ∀ (e : MdElement) (i' : Nat) (C R : List Str),
          e.content = joinNl C → C ≠ [] → C ++ R = line :: rest → R.length ≤ n →
          joinNl ((e :: parseLinesAux n i' R).map (·.content)) = joinNl (line :: rest) := by
        intro e i' C R hc hC hCR hlen
        rcases R with _ | ⟨r0, R'⟩
        · simp only [parseLinesAux, List.map_cons, List.map_nil, joinNl, hc]
          rw [← hCR]
          simp
        · obtain ⟨n', rfl⟩ : ∃ n', n = n' + 1 := by
            cases n
            · simp at hlen
            · exact ⟨_, rfl⟩
          have hne := parseLinesAux_ne_nil n' i' r0 R'
          have ihR := ih (r0 :: R') hlen i'
          have hmapne : (parseLinesAux (n' + 1) i' (r0 :: R')).map (·.content) ≠ [] := by
            simpa using hne
          simp only [List.map_cons, hc]
          rw [joinNl_cons _ _ hmapne, ihR, ← hCR,
            joinNl_append C (r0 :: R') hC (by simp)]
      simp only [parseLinesAux]
      split
      · refine step _ _ (line :: (cbAux rest).1) (cbAux rest).2 rfl (by simp) ?_ ?_
        · simp [cbAux_append rest]
        · have hlen := congrArg List.length (cbAux_append rest)
          simp only [List.length_append] at hlen
          omega
      · repeat' split
        all_goals exact step _ _ [line] rest (by simp [joinNl]) (by simp) rfl hrest

theorem renderLine_nilmap (p : Nat × MdElement) : renderLine [] p = some p.2.content := by
  simp [renderLine, dictFind]

theorem filterMap_renderLine_nil (l : List (Nat × MdElement)) :
    l.filterMap (renderLine []) = l.map (fun p => p.2.content) := by
  induction l with
  | nil => rfl
  | cons p t ih => simp [List.filterMap_cons, renderLine_nilmap, ih]

/-- C1: reconstructing the parsed element sequence of any document with
an empty rewrite map reproduces the document byte-for-byte: every
element's raw content is emitted in position order and joined with
newlines. -/
theorem c1_round_trip (doc : Str) : reconstruct (parse doc) [] = doc := by
  unfold reconstruct reconstructLines parse
  rw [filterMap_renderLine_nil]
  have hsnd : (parseLinesAux (splitNl doc).length 0 (splitNl doc)).enum.map
        (fun p => p.2.content)
      = (parseLinesAux (splitNl doc).length 0 (splitNl doc)).map (·.content) := by
    rw [show (fun p : Nat × MdElement => p.2.content) = ((·.content) ∘ Prod.snd) from rfl,
      ← List.map_map, List.enum_map_snd]
  rw [hsnd, parseLinesAux_content _ _ le_rfl, joinNl_splitNl]

/-- C2: an element whose position is not a key of the rewrite map is
rendered by reconstruct exactly as its original raw content, and that
raw content appears among the reconstructed output lines. -/
theorem c2_theorem (doc : Str) (m : List (Nat × Str)) (idx : Nat) (e : MdElement)
    (he : (parse doc).get? idx = some e) (hm : dictFind m idx = none) :
    renderLine m (idx, e) = some e.content ∧
      e.content ∈ reconstructLines (parse doc) m := by
  have hr : renderLine m (idx, e) = some e.content := by
    simp [renderLine, hm]
  refine ⟨hr, ?_⟩
  have h2 := List.get?_enum (parse doc) idx
  rw [he] at h2
  exact List.mem_filterMap.2 ⟨(idx, e), List.get?_mem h2, hr⟩

theorem c2_witness :
    ((parse (strL ("a\nb"))).get? 1 =
        some (MdElement.mk .paragraph (strL ("b")) 1 none none none true) ∧
      dictFind [(0, strL ("X"))] 1 = none) ∧
    (renderLine [(0, strL ("X"))]
        (1, MdElement.mk .paragraph (strL ("b")) 1 none none none true)
        = some (strL ("b")) ∧
      strL ("b") ∈ reconstructLines (parse (strL ("a\nb"))) [(0, strL ("X"))]) :=
  ⟨⟨by decide, by decide⟩,
    c2_theorem (strL ("a\nb")) [(0, strL ("X"))] 1
      (MdElement.mk .paragraph (strL ("b")) 1 none none none true)
      (by decide) (by decide)⟩

theorem restore_append_code (text : Str) (L : List (Str × Str × Str)) (orig ph : Str) :
    restore text (L ++ [(orig, ph, strL ("CODE"))]) = restore (replaceAll text ph orig) L := by
  unfold restore
  rw [List.reverse_append]
  simp [restoreStep]

/-- C8 (amended): when restore processes a CODE entry (the ledger is
walked in reverse, so the last entry is processed first) it replaces
EVERY occurrence of the placeholder - Python `str.replace` with no
count - not only the first; the concrete conjunct shows both
occurrences being replaced. -/
theorem c8_theorem :
    (∀ (text : Str) (L : List (Str × Str × Str)) (orig ph : Str),
      restore text (L ++ [(orig, ph, strL ("CODE"))]) =
        restore (replaceAll text ph orig) L) ∧
    replaceAll (strL ("INLINECODE0PLACEHOLDER and INLINECODE0PLACEHOLDER"))
        (strL ("INLINECODE0PLACEHOLDER")) (strL ("`x`")) = strL ("`x` and `x`") :=
  ⟨restore_append_code, by decide⟩

/-- C8 counterexample: restore on a text holding two occurrences of a
placeholder replaces both, while the claim says the later occurrence is
left as it is. -/
theorem c8_counterexample :
    restore (strL ("INLINECODE0PLACEHOLDER INLINECODE0PLACEHOLDER"))
        [(strL ("`x`"), strL ("INLINECODE0PLACEHOLDER"), strL ("CODE"))]
      = strL ("`x` `x`") ∧
    strL ("`x` `x`") ≠ strL ("`x` INLINECODE0PLACEHOLDER") := by
  constructor
  · decide
  · decide

theorem digitChar_inj (d1 d2 : Nat) (h1 : d1 < 10) (h2 : d2 < 10) :
    digitChar d1 = digitChar d2 → d1 = d2 := by
  interval_cases d1 <;> interval_cases d2 <;> decide

theorem mapDigit_inj : ∀ (l1 l2 : List Nat), (∀ x ∈ l1, x < 10) → (∀ x ∈ l2, x < 10) →
    l1.map digitChar = l2.map digitChar → l1 = l2 := by
  intro l1
  induction l1 with
  | nil =>
    intro l2 _ _ h
    cases l2
    · rfl
    · simp at h
  | cons x t ih =>
    intro l2 hb1 hb2 h
    cases l2 with
    | nil => simp at h
    | cons y t2 =>
      simp only [List.map_cons, List.cons.injEq] at h
      have hx := digitChar_inj x y (hb1 x (by simp)) (hb2 y (by simp)) h.1
      subst hx
      rw [ih t2 (fun z hz => hb1 z (by simp [hz])) (fun z hz => hb2 z (by simp [hz])) h.2]

theorem natToStr_inj (m n : Nat) (h : natToStr m = natToStr n) : m = n := by
  unfold natToStr at h
  have hbm : ∀ x ∈ Nat.digits 10 m, x < 10 := fun x hx => Nat.digits_lt_base (by norm_num) hx
  have hbn : ∀ x ∈ Nat.digits 10 n, x < 10 := fun x hx => Nat.digits_lt_base (by norm_num) hx
  have hzero : ∀ q : Nat, q ≠ 0 →
      (['0'] : Str) = (Nat.digits 10 q).reverse.map digitChar → False := by
    intro q hq hh
    have hlen := congrArg List.length hh
    simp only [List.length_cons, List.length_nil, List.length_map,
      List.length_reverse] at hlen
    obtain ⟨d, hd⟩ := List.length_eq_one.1 hlen.symm
    rw [hd] at hh
    simp only [List.reverse_cons, List.reverse_nil, List.nil_append,
      List.map_cons, List.map_nil, List.cons.injEq] at hh
    have hdlt : d < 10 := by
      have := Nat.digits_lt_base (b := 10) (by norm_num) (m := q) (d := d) ?_
      · exact this
      · rw [hd]
        simp
    have hd0 : d = 0 := by
      have := digitChar_inj d 0 hdlt (by norm_num) (by rw [← hh.1]; rfl)
      exact this
    have hq0 : q = 0 := by
      have h2 := congrArg (Nat.ofDigits 10) hd
      rw [Nat.ofDigits_digits] at h2
      rw [hd0] at h2
      simpa [Nat.ofDigits] using h2
    exact hq hq0
  by_cases hm : m = 0 <;> by_cases hn : n = 0
  · rw [hm, hn]
  · exfalso
    rw [if_pos hm, if_neg hn] at h
    exact hzero n hn h
  · exfalso
    rw [if_neg hm, if_pos hn] at h
    exact hzero m hm h.symm
  · rw [if_neg hm, if_neg hn] at h
    have hrev := mapDigit_inj ((Nat.digits 10 m).reverse) ((Nat.digits 10 n).reverse)
      (fun x hx => hbm x (List.mem_reverse.1 hx))
      (fun x hx => hbn x (List.mem_reverse.1 hx)) h
    have hdig := List.reverse_inj.1 hrev
    have := congrArg (Nat.ofDigits 10) hdig
    rwa [Nat.ofDigits_digits, Nat.ofDigits_digits] at this

theorem placeholderStr_inj (i j : Nat) (h : placeholderStr i = placeholderStr j) : i = j := by
  unfold placeholderStr at h
  exact natToStr_inj i j (List.append_cancel_left (List.append_cancel_right h))

theorem codePass_anchors : ∀ (cs : List Str) (i : Nat) (m : Str),
    ((codePass i m cs).2).map (fun e => e.2.1) = (List.range' i cs.length).map placeholderStr := by
  intro cs
  induction cs with
  | nil => intro i m; rfl
  | cons c rest ih =>
    intro i m
    simp only [codePass, List.map_cons, List.length_cons, List.range'_succ]
    rw [ih (i + 1)]

theorem codePass_length (cs : List Str) (i : Nat) (m : Str) :
    ((codePass i m cs).2).length = cs.length := by
  have := congrArg List.length (codePass_anchors cs i m)
  simpa using this

/-- C7 (amended): the anchors of the inline-code entries of one
preserve call - the ledger's first `(codeScan text).length` entries,
which are exactly the entries the code pass produced - are pairwise
distinct placeholders.  (Link-label anchors need not be distinct; see
the counterexample.) -/
theorem c7_theorem (text : Str) :
    (((preserve text).2.take (codeScan text).length).map (fun e => e.2.1)).Pairwise (· ≠ ·) := by
  have hsplit : (preserve text).2 =
      (codePass 0 text (codeScan text)).2 ++ (linkPass (codePass 0 text (codeScan text)).1
        (linkScan (codePass 0 text (codeScan text)).1)).2 := rfl
  rw [hsplit]
  rw [List.take_append_of_le_length (by rw [codePass_length])]
  rw [show (codeScan text).length = ((codePass 0 text (codeScan text)).2).length from
    (codePass_length _ _ _).symm, List.take_length]
  rw [codePass_anchors]
  have hlt : (List.range' 0 (codeScan text).length).Pairwise (· < ·) := List.pairwise_lt_range' ..
  refine List.Pairwise.map placeholderStr ?_ hlt
  intro a b hab heq
  exact Nat.ne_of_lt hab (placeholderStr_inj a b heq)

/-- C7 counterexample: a text with two links sharing the label `a`
yields a ledger whose anchors are `a` and `a` - not pairwise distinct,
against the claim that all anchors of one extraction pass differ. -/
theorem c7_counterexample :
    ((preserve (strL ("[a](u) [a](v)"))).2.map (fun e => e.2.1))
      = [strL ("a"), strL ("a")] ∧
    ¬ (((preserve (strL ("[a](u) [a](v)"))).2.map (fun e => e.2.1)).Pairwise (· ≠ ·)) := by
  constructor
  · decide
  · intro hp
    rw [(by decide : ((preserve (strL ("[a](u) [a](v)"))).2.map (fun e => e.2.1))
      = [strL ("a"), strL ("a")])] at hp
    simp [List.pairwise_cons] at hp

theorem strFind_le : ∀ (s pat : Str) (k : Nat), strFind s pat = some k →
    k + pat.length ≤ s.length := by
  intro s
  induction s with
  | nil =>
    intro pat k h
    simp only [strFind] at h
    by_cases hi : pat.isPrefixOf ([] : Str)
    · have : pat = [] := List.prefix_nil.1 (List.isPrefixOf_iff_prefix.1 hi)
      rw [if_pos hi] at h
      cases h
      simp [this]
    · rw [if_neg hi] at h
      cases h
  | cons c r ih =>
    intro pat k h
    simp only [strFind] at h
    by_cases hi : pat.isPrefixOf (c :: r)
    · rw [if_pos hi] at h
      cases h
      have := (List.isPrefixOf_iff_prefix.1 hi).length_le
      simpa using this
    · rw [if_neg hi] at h
      rcases ho : strFind r pat with _ | k'
      · rw [ho] at h
        simp at h
      · rw [ho] at h
        simp only [Option.map_some'] at h
        cases h
        have := ih pat k' ho
        simp only [List.length_cons]
        omega

theorem strFind_prefix : ∀ (s pat : Str) (k : Nat), strFind s pat = some k →
    pat <+: s.drop k := by
  intro s
  induction s with
  | nil =>
    intro pat k h
    simp only [strFind] at h
    by_cases hi : pat.isPrefixOf ([] : Str)
    · have hp : pat = [] := List.prefix_nil.1 (List.isPrefixOf_iff_prefix.1 hi)
      rw [if_pos hi] at h
      cases h
      simp [hp]
    · rw [if_neg hi] at h
      cases h
  | cons c r ih =>
    intro pat k h
    simp only [strFind] at h
    by_cases hi : pat.isPrefixOf (c :: r)
    · rw [if_pos hi] at h
      cases h
      simpa using List.isPrefixOf_iff_prefix.1 hi
    · rw [if_neg hi] at h
      rcases ho : strFind r pat with _ | k'
      · rw [ho] at h
        simp at h
      · rw [ho] at h
        simp only [Option.map_some'] at h
        cases h
        simpa using ih pat k' ho

theorem linkScanAux_shape (fuel : Nat) : ∀ (s : Str) (e : Str × Str × Str),
    e ∈ linkScanAux fuel s → e.1 = '[' :: e.2.1 ++ ']' :: '(' :: (e.2.2 ++ [')']) := by
  induction fuel with
  | zero =>
    intro s e he
    cases s <;> simp [linkScanAux] at he
  | succ fuel ih =>
    intro s e he
    match s with
    | [] => simp [linkScanAux] at he
    | c :: r =>
      simp only [linkScanAux] at he
      split at he
      · split at he
        · split at he
          · exact ih r e he
          · split at he
            · split at he
              · exact ih r e he
              · rcases List.mem_cons.1 he with rfl | hm
                · rfl
                · exact ih _ e hm
            · exact ih r e he
        · exact ih r e he
      · exact ih r e he

theorem replace1_eq_of_find (s old new : Str) (k : Nat) (h : strFind s old = some k) :
    replace1 s old new = s.take k ++ new ++ s.drop (k + old.length) := by
  unfold replace1
  rw [h]

/-- C3 (amended): the preserve/restore round trip.  First conjunct: a
text with no inline code span and no link is returned unchanged with an
empty ledger, and restore is the identity on it.  Second conjunct: for
a text whose only inline construct is one link `(full, l, u)` found at
index `k`, restore reproduces the text exactly PROVIDED the URL is not
the literal string `CODE` (restore's type check mistakes such a link
for a code entry and replaces every occurrence of the label) AND the
first occurrence of the label in the rewrite-safe text is the one the
link left behind (the counterexample shows the round trip failing in
each of the two excluded cases). -/
theorem c3_theorem :
    (∀ text : Str, codeScan text = [] → linkScan text = [] →
      (preserve text = (text, []) ∧ restore text [] = text)) ∧
    (∀ (text full l u : Str) (k : Nat),
      codeScan text = [] →
      linkScan text = [(full, l, u)] →
      u ≠ strL ("CODE") →
      strFind text full = some k →
      strFind (text.take k ++ l ++ text.drop (k + full.length)) l = some k →
      restore (preserve text).1 (preserve text).2 = text) := by
  constructor
  · intro text hc hl
    have hp : preserve text = (text, []) := by
      unfold preserve
      rw [hc]
      simp only [codePass]
      rw [hl]
      simp [linkPass]
    exact ⟨hp, by simp [restore]⟩
  · intro text full l u k hc hl hu hk hk2
    have hshape : full = '[' :: l ++ ']' :: '(' :: (u ++ [')']) := by
      have hmem : (full, l, u) ∈ linkScan text := by
        rw [hl]
        simp
      exact linkScanAux_shape text.length text (full, l, u) hmem
    have hpre : preserve text = (text.take k ++ l ++ text.drop (k + full.length),
        [(full, l, u)]) := by
      unfold preserve
      rw [hc]
      simp only [codePass]
      rw [hl]
      simp only [linkPass]
      rw [replace1_eq_of_find text full l k hk]
      simp
    have hklen : k + full.length ≤ text.length := strFind_le text full k hk
    have htk : (text.take k).length = k := by
      simp only [List.length_take]
      omega
    have h1 : (text.take k ++ l ++ text.drop (k + full.length)).take k = text.take k := by
      rw [List.append_assoc, List.take_left' htk]
    have h2 : (text.take k ++ l ++ text.drop (k + full.length)).drop (k + l.length)
        = text.drop (k + full.length) := by
      rw [List.append_assoc, ← List.append_assoc]
      exact List.drop_left' (by simp [htk])
    rw [hpre]
    show restore (text.take k ++ l ++ text.drop (k + full.length)) [(full, l, u)] = text
    unfold restore
    simp only [List.reverse_cons, List.reverse_nil, List.nil_append, List.foldl_cons,
      List.foldl_nil]
    simp only [restoreStep]
    rw [if_neg hu, if_pos (by rw [hk2]; rfl)]
    rw [replace1_eq_of_find _ _ _ _ hk2, h1, h2, ← hshape]
    have hpref := strFind_prefix text full k hk
    have hsplit : full ++ text.drop (k + full.length) = text.drop k := by
      have h3 := List.prefix_iff_eq_append.1 hpref
      rwa [List.drop_drop] at h3
    rw [List.append_assoc, hsplit, List.take_append_drop]

/-- C3 counterexample, both failure modes of the round trip.  First:
for the text `a b` followed by a link labelled `a`, the
rewriter-untouched round trip moves the link onto the earlier
occurrence of `a`.  Second: for a link whose URL is the literal string
`CODE`, restore mistakes the link entry for a code entry and replaces
every occurrence of the label, giving `[a](CODE) [a](CODE)`.  In
neither case does restore reproduce the input. -/
theorem c3_counterexample :
    restore (preserve (strL ("a b [a](u)"))).1 (preserve (strL ("a b [a](u)"))).2
      ≠ strL ("a b [a](u)") ∧
    restore (preserve (strL ("[a](CODE) a"))).1 (preserve (strL ("[a](CODE) a"))).2
      ≠ strL ("[a](CODE) a") := by
  constructor <;> decide

theorem c3_witness :
    (codeScan (strL ("x [a](u) y")) = [] ∧
      linkScan (strL ("x [a](u) y")) = [(strL ("[a](u)"), strL ("a"), strL ("u"))] ∧
      (strL ("u") : Str) ≠ strL ("CODE") ∧
      strFind (strL ("x [a](u) y")) (strL ("[a](u)")) = some 2 ∧
      strFind ((strL ("x [a](u) y")).take 2 ++ strL ("a") ++
        (strL ("x [a](u) y")).drop (2 + (strL ("[a](u)")).length)) (strL ("a")) = some 2) ∧
    restore (preserve (strL ("x [a](u) y"))).1 (preserve (strL ("x [a](u) y"))).2
      = strL ("x [a](u) y") :=
  ⟨⟨by decide, by decide, by decide, by decide, by decide⟩,
    c3_theorem.2 (strL ("x [a](u) y")) (strL ("[a](u)")) (strL ("a")) (strL ("u")) 2
      (by decide) (by decide) (by decide) (by decide) (by decide)⟩

/-- C9: empty or whitespace-only input returns neutral results without
failing: the segmenter returns the empty chunk list and the repetition
detector the all-zero report (for every tokenizer/stemmer collaborator). -/
theorem c9_theorem (text : Str) (ms : Nat) (tok : Str → List Str) (stem : Str → Str)
    (nltkStops : List Str) (ws : Nat) (h : pyStrip text = []) :
    chunk_text text ms = [] ∧ detect tok stem nltkStops text ws = RepReport.mk [] 0 0 := by
  constructor
  · unfold chunk_text
    rw [if_pos h]
  · unfold detect
    rw [if_pos h]

theorem c9_witness :
    pyStrip (strL (" \t ")) = [] ∧
    (chunk_text (strL (" \t ")) 4 = [] ∧
      detect (fun _ => []) (fun w => w) [] (strL (" \t ")) 50 = RepReport.mk [] 0 0) :=
  ⟨by decide, c9_theorem (strL (" \t ")) 4 (fun _ => []) (fun w => w) [] 50 (by decide)⟩

theorem wordsAux_append_sep (d : Char) (hd : isPySpace d = true) :
    ∀ (x : Str) (revCur : Str) (y : Str),
      wordsAux revCur (x ++ d :: y) = wordsAux revCur x ++ wordsAux [] y := by
  intro x
  induction x with
  | nil =>
    intro revCur y
    simp [wordsAux, hd]
  | cons c r ih =>
    intro revCur y
    by_cases hc : isPySpace c
    · simp only [List.cons_append, wordsAux, hc, if_true]
      simp only [List.append_eq]
      rw [ih [] y]
      simp [List.append_assoc]
    · simp only [List.cons_append, wordsAux, hc]
      simp only [Bool.false_eq_true, if_false]
      exact ih (c :: revCur) y

theorem pyWords_append_sep (d : Char) (hd : isPySpace d = true) (x y : Str) :
    pyWords (x ++ d :: y) = pyWords x ++ pyWords y :=
  wordsAux_append_sep d hd x [] y

theorem wordsAux_allspace : ∀ (sp : Str), (∀ c ∈ sp, isPySpace c = true) →
    ∀ revCur, wordsAux revCur sp = if revCur = [] then [] else [revCur.reverse] := by
  intro sp
  induction sp with
  | nil =>
    intro _ revCur
    rfl
  | cons c t ih =>
    intro hall revCur
    have hc : isPySpace c = true := hall c (by simp)
    simp only [wordsAux, hc, if_true]
    rw [ih (fun z hz => hall z (by simp [hz])) []]
    simp

theorem pyWords_allspace (sp : Str) (hall : ∀ c ∈ sp, isPySpace c = true) :
    pyWords sp = [] := by
  unfold pyWords
  rw [wordsAux_allspace sp hall []]
  simp

theorem pyWords_append_allspace : ∀ (sp : Str), (∀ c ∈ sp, isPySpace c = true) →
    ∀ (x : Str), pyWords (x ++ sp) = pyWords x := by
  intro sp
  induction sp with
  | nil =>
    intro _ x
    simp
  | cons d t ih =>
    intro hall x
    rw [pyWords_append_sep d (hall d (by simp)) x t,
      pyWords_allspace t (fun z hz => hall z (by simp [hz]))]
    simp

theorem pyWords_allspace_prepend : ∀ (sp : Str), (∀ c ∈ sp, isPySpace c = true) →
    ∀ (x : Str), pyWords (sp ++ x) = pyWords x := by
  intro sp
  induction sp with
  | nil =>
    intro _ x
    simp
  | cons d t ih =>
    intro hall x
    have hd : isPySpace d = true := hall d (by simp)
    have hstep : pyWords ((d :: t) ++ x) = pyWords (t ++ x) := by
      show wordsAux [] (d :: (t ++ x)) = wordsAux [] (t ++ x)
      simp [wordsAux, hd]
    rw [hstep, ih (fun z hz => hall z (by simp [hz])) x]

theorem pyWords_pyStrip (s : Str) : pyWords (pyStrip s) = pyWords s := by
  have hsplit1 : s = s.takeWhile isPySpace ++ s.dropWhile isPySpace :=
    (List.takeWhile_append_dropWhile isPySpace s).symm
  have h1 : pyWords s = pyWords (s.dropWhile isPySpace) := by
    conv_lhs => rw [hsplit1]
    exact pyWords_allspace_prepend _ (fun c hc => List.mem_takeWhile_imp hc) _
  set t := s.dropWhile isPySpace with ht
  have hsplit2 : t = pyStrip s ++ (t.reverse.takeWhile isPySpace).reverse := by
    have h2 : t.reverse = t.reverse.takeWhile isPySpace ++ t.reverse.dropWhile isPySpace :=
      (List.takeWhile_append_dropWhile isPySpace t.reverse).symm
    have h3 := congrArg List.reverse h2
    rw [List.reverse_reverse, List.reverse_append] at h3
    exact h3
  have h4 : pyWords t = pyWords (pyStrip s) := by
    conv_lhs => rw [hsplit2]
    exact pyWords_append_allspace _
      (fun c hc => List.mem_takeWhile_imp (List.mem_reverse.1 hc)) _
  rw [h1, h4]

theorem pyWords_joinSp : ∀ (l : List Str),
    pyWords (joinSp l) = (l.map pyWords).flatten := by
  intro l
  induction l with
  | nil => rfl
  | cons x t ih =>
    rcases t with _ | ⟨y, t2⟩
    · simp [joinSp]
    · show pyWords (x ++ ' ' :: joinSp (y :: t2)) = _
      rw [pyWords_append_sep ' ' (by decide) x (joinSp (y :: t2)), ih]
      simp

theorem chunksOfAux_flatten (m : Nat) : ∀ (fuel : Nat) (l : List Str), l.length ≤ fuel →
    (chunksOfAux m fuel l).flatten = l := by
  intro fuel
  induction fuel with
  | zero =>
    intro l h
    match l with
    | [] => rfl
    | x :: xs => simp at h
  | succ fuel ih =>
    intro l h
    match l with
    | [] => rfl
    | x :: xs =>
      simp only [chunksOfAux, List.flatten_cons]
      rw [ih (xs.drop m) (by
        have := List.length_drop m xs
        simp only [List.length_cons] at h
        omega)]
      simp [List.take_append_drop]

theorem chunksOfAux_ne_nil (m : Nat) : ∀ (fuel : Nat) (l : List Str) (g : List Str),
    g ∈ chunksOfAux m fuel l → g ≠ [] := by
  intro fuel
  induction fuel with
  | zero =>
    intro l g hg
    match l with
    | [] => simp [chunksOfAux] at hg
    | x :: xs => simp [chunksOfAux] at hg
  | succ fuel ih =>
    intro l g hg
    match l with
    | [] => simp [chunksOfAux] at hg
    | x :: xs =>
      simp only [chunksOfAux, List.mem_cons] at hg
      rcases hg with rfl | hg
      · simp
      · exact ih _ g hg

theorem sentAux_words : ∀ (rest : Str) (mode : Bool) (revCur : Str),
    (mode = true → revCur = []) →
    ((sentAux mode revCur rest).map pyWords).flatten = pyWords (revCur.reverse ++ rest) := by
  intro rest
  induction rest with
  | nil =>
    intro mode revCur _
    cases mode <;> simp [sentAux]
  | cons c r ih =>
    intro mode revCur hinv
    cases mode with
    | true =>
      have hrc : revCur = [] := hinv rfl
      subst hrc
      by_cases hc : c = ' '
      · rw [show sentAux true [] (c :: r) = sentAux true [] r by
          simp [sentAux, hc]]
        rw [ih true [] (fun _ => rfl)]
        subst hc
        show pyWords ([] ++ r) = pyWords ([] ++ ' ' :: r)
        simp only [List.nil_append]
        show pyWords r = wordsAux [] (' ' :: r)
        simp [wordsAux]
        rfl
      · rw [show sentAux true [] (c :: r) = sentAux false [c] r by
          simp [sentAux, hc]]
        rw [ih false [c] (by simp)]
        simp
    | false =>
      by_cases hsep : c = ' ' ∧ termHead revCur = true
      · rw [show sentAux false revCur (c :: r) = revCur.reverse :: sentAux true [] r by
          simp [sentAux, hsep.1, hsep.2]]
        simp only [List.map_cons, List.flatten_cons]
        rw [ih true [] (fun _ => rfl)]
        rw [hsep.1, pyWords_append_sep ' ' (by decide) revCur.reverse r]
        simp
      · rw [show sentAux false revCur (c :: r) = sentAux false (c :: revCur) r by
          simp only [sentAux]
          rw [if_neg hsep]]
        rw [ih false (c :: revCur) (by simp)]
        simp

theorem getLast?_append_cons_of_ne_nil (x : Str) (c : Char) (r : Str) (hr : r ≠ []) :
    (x ++ c :: r).getLast? = (x ++ r).getLast? := by
  obtain ⟨r0, r', rfl⟩ : ∃ r0 r', r = r0 :: r' := by
    cases r
    · exact absurd rfl hr
    · exact ⟨_, _, rfl⟩
  rw [List.getLast?_append, List.getLast?_append, List.getLast?_cons_cons]

theorem sent_r_ne_nil (revCur : Str) (c : Char) (hc : isPySpace c = true) (r : Str)
    (hlast : ∀ d, (revCur.reverse ++ c :: r).getLast? = some d → isPySpace d = false) :
    r ≠ [] := by
  intro h0
  subst h0
  have h1 : (revCur.reverse ++ [c]).getLast? = some c := by
    rw [List.getLast?_append]
    simp
  have h2 := hlast c h1
  rw [hc] at h2
  cases h2

theorem sentAux_pieces : ∀ (rest : Str) (mode : Bool) (revCur : Str),
    (revCur.reverse ++ rest) ≠ [] →
    (∀ c, (revCur.reverse ++ rest).getLast? = some c → isPySpace c = false) →
    ∀ piece ∈ sentAux mode revCur rest, ∃ c ∈ piece, isPySpace c = false := by
  intro rest
  induction rest with
  | nil =>
    intro mode revCur hne hlast piece hp
    have hpe : piece = revCur.reverse := by
      cases mode <;> simpa [sentAux] using hp
    subst hpe
    have hne2 : revCur.reverse ≠ [] := by simpa using hne
    have hsome := List.getLast?_eq_getLast_of_ne_nil hne2
    refine ⟨revCur.reverse.getLast hne2, List.getLast_mem hne2, ?_⟩
    apply hlast
    rw [List.append_nil]
    exact hsome
  | cons c r ih =>
    intro mode revCur hne hlast piece hp
    have hsame : (c :: revCur).reverse ++ r = revCur.reverse ++ c :: r := by
      simp
    cases mode with
    | true =>
      by_cases hc : c = ' '
      · rw [show sentAux true revCur (c :: r) = sentAux true revCur r by
          simp [sentAux, hc]] at hp
        have hr : r ≠ [] := sent_r_ne_nil revCur c (by rw [hc]; decide) r hlast
        apply ih true revCur (by simp [hr]) ?_ piece hp
        intro d hd
        apply hlast d
        rw [getLast?_append_cons_of_ne_nil revCur.reverse c r hr]
        exact hd
      · rw [show sentAux true revCur (c :: r) = sentAux false (c :: revCur) r by
          simp [sentAux, hc]] at hp
        apply ih false (c :: revCur) ?_ ?_ piece hp
        · rw [hsame]
          exact hne
        · intro d hd
          apply hlast d
          rw [← hsame]
          exact hd
    | false =>
      by_cases hsep : c = ' ' ∧ termHead revCur = true
      · rw [show sentAux false revCur (c :: r) = revCur.reverse :: sentAux true [] r by
          simp [sentAux, hsep.1, hsep.2]] at hp
        rcases List.mem_cons.1 hp with rfl | hp'
        · rcases hrv : revCur with _ | ⟨p, ps⟩
          · rw [hrv] at hsep
            simp [termHead] at hsep
          · have hterm := hsep.2
            rw [hrv] at hterm
            simp only [termHead, Bool.or_eq_true, beq_iff_eq] at hterm
            have hpns : isPySpace p = false := by
              rcases hterm with (h | h) | h <;> subst h <;> decide
            refine ⟨p, ?_, hpns⟩
            simp
        · have hr : r ≠ [] := sent_r_ne_nil revCur c (by rw [hsep.1]; decide) r hlast
          apply ih true [] (by simpa using hr) ?_ piece hp'
          intro d hd
          apply hlast d
          rw [getLast?_append_cons_of_ne_nil revCur.reverse c r hr, List.getLast?_append]
          simp only [List.reverse_nil, List.nil_append] at hd
          rw [hd]
          rfl
      · rw [show sentAux false revCur (c :: r) = sentAux false (c :: revCur) r by
          simp only [sentAux]
          rw [if_neg hsep]] at hp
        apply ih false (c :: revCur) ?_ ?_ piece hp
        · rw [hsame]
          exact hne
        · intro d hd
          apply hlast d
          rw [← hsame]
          exact hd

theorem pyStrip_eq_nil_imp (s : Str) (h : pyStrip s = []) :
    ∀ c ∈ s, isPySpace c = true := by
  unfold pyStrip at h
  rw [List.reverse_eq_nil_iff] at h
  have h2 := List.dropWhile_eq_nil_iff.1 h
  intro c hc
  have hc2 : c ∈ s.takeWhile isPySpace ++ s.dropWhile isPySpace := by
    rw [List.takeWhile_append_dropWhile]
    exact hc
  rcases List.mem_append.1 hc2 with h3 | h3
  · exact List.mem_takeWhile_imp h3
  · exact h2 c (List.mem_reverse.2 h3)

theorem head?_dropWhile_not (p : Char → Bool) : ∀ (l : Str) (c : Char),
    (l.dropWhile p).head? = some c → p c = false := by
  intro l
  induction l with
  | nil =>
    intro c h
    simp [List.dropWhile] at h
  | cons a t ih =>
    intro c h
    by_cases hp : p a
    · rw [List.dropWhile_cons_of_pos hp] at h
      exact ih c h
    · rw [List.dropWhile_cons_of_neg hp] at h
      simp only [List.head?_cons, Option.some.injEq] at h
      subst h
      exact Bool.eq_false_iff.2 hp

theorem pyStrip_getLast?_not_space (s : Str) (c : Char)
    (h : (pyStrip s).getLast? = some c) : isPySpace c = false := by
  unfold pyStrip at h
  rw [List.getLast?_reverse] at h
  exact head?_dropWhile_not isPySpace _ c h

/-- C10: chunking loses no words and reorders nothing - joining the
chunks with single spaces and splitting on whitespace gives exactly the
whitespace-split word sequence of the original text, and every returned
chunk is non-empty and not whitespace-only. -/
theorem c10_theorem (text : Str) (m : Nat) (hm : 1 ≤ m) :
    pyWords (joinSp (chunk_text text m)) = pyWords text ∧
    ∀ ch ∈ chunk_text text m, ch ≠ [] ∧ pyStrip ch ≠ [] := by
  obtain ⟨m', rfl⟩ : ∃ m', m = m' + 1 := ⟨m - 1, by omega⟩
  unfold chunk_text
  by_cases hs : pyStrip text = []
  · rw [if_pos hs]
    constructor
    · show pyWords (joinSp []) = pyWords text
      rw [← pyWords_pyStrip text, hs]
      rfl
    · intro ch hch
      simp at hch
  · rw [if_neg hs]
    have hpieces : ∀ piece ∈ sentSplit (pyStrip text), ∃ c ∈ piece, isPySpace c = false := by
      apply sentAux_pieces (pyStrip text) false []
      · simpa using hs
      · intro c hc
        apply pyStrip_getLast?_not_space text c
        simpa using hc
    have hflat : (chunksOf (m' + 1) (sentSplit (pyStrip text))).flatten
        = sentSplit (pyStrip text) := by
      show (chunksOfAux m' (sentSplit (pyStrip text)).length (sentSplit (pyStrip text))).flatten
        = sentSplit (pyStrip text)
      exact chunksOfAux_flatten m' _ _ le_rfl
    have hchunknn : ∀ ch ∈ (chunksOf (m' + 1) (sentSplit (pyStrip text))).map joinSp,
        ∃ c ∈ ch, isPySpace c = false := by
      intro ch hch
      rcases List.mem_map.1 hch with ⟨g, hg, rfl⟩
      have hgne : g ≠ [] := chunksOfAux_ne_nil m' _ _ g hg
      rcases g with _ | ⟨p, t⟩
      · exact absurd rfl hgne
      · have hpmem : p ∈ sentSplit (pyStrip text) := by
          rw [← hflat]
          exact List.mem_flatten.2 ⟨p :: t, hg, by simp⟩
        rcases hpieces p hpmem with ⟨c, hcp, hcns⟩
        refine ⟨c, ?_, hcns⟩
        rcases t with _ | ⟨q, t2⟩
        · simpa [joinSp] using hcp
        · show c ∈ p ++ ' ' :: joinSp (q :: t2)
          exact List.mem_append.2 (Or.inl hcp)
    have hfilter : ((chunksOf (m' + 1) (sentSplit (pyStrip text))).map joinSp).filter
        (fun ch => decide (pyStrip ch ≠ []))
        = (chunksOf (m' + 1) (sentSplit (pyStrip text))).map joinSp := by
      rw [List.filter_eq_self]
      intro ch hch
      rcases hchunknn ch hch with ⟨c, hc, hcns⟩
      simp only [ne_eq, decide_not, Bool.not_eq_eq_eq_not, Bool.not_true, decide_eq_false_iff_not]
      intro h0
      have h1 := pyStrip_eq_nil_imp ch h0 c hc
      rw [hcns] at h1
      cases h1
    rw [hfilter]
    constructor
    · rw [pyWords_joinSp, List.map_map]
      have hpt : ∀ g ∈ chunksOf (m' + 1) (sentSplit (pyStrip text)),
          (pyWords ∘ joinSp) g = (List.flatten ∘ List.map pyWords) g :=
        fun g _ => pyWords_joinSp g
      rw [List.map_congr_left hpt]
      rw [show (List.map (List.flatten ∘ List.map pyWords)
            (chunksOf (m' + 1) (sentSplit (pyStrip text))))
          = (List.map List.flatten (List.map (List.map pyWords)
            (chunksOf (m' + 1) (sentSplit (pyStrip text))))) by rw [List.map_map]]
      rw [← List.flatten_flatten, ← List.map_flatten, hflat]
      have hw := sentAux_words (pyStrip text) false [] (by simp)
      simp only [List.reverse_nil, List.nil_append] at hw
      rw [show sentAux false [] (pyStrip text) = sentSplit (pyStrip text) from rfl] at hw
      rw [hw, pyWords_pyStrip]
    · intro ch hch
      rcases hchunknn ch hch with ⟨c, hc, hcns⟩
      constructor
      · intro h0
        rw [h0] at hc
        simp at hc
      · intro h0
        have h1 := pyStrip_eq_nil_imp ch h0 c hc
        rw [hcns] at h1
        cases h1

theorem c10_witness :
    1 ≤ 2 ∧
    (pyWords (joinSp (chunk_text (strL ("The cat sat. The cat ran. The dog slept.")) 2))
        = pyWords (strL ("The cat sat. The cat ran. The dog slept.")) ∧
      ∀ ch ∈ chunk_text (strL ("The cat sat. The cat ran. The dog slept.")) 2,
        ch ≠ [] ∧ pyStrip ch ≠ []) :=
  ⟨by decide, c10_theorem (strL ("The cat sat. The cat ran. The dog slept.")) 2 (by decide)⟩

theorem statStep_subs (ow gw : List Str) : ∀ (ops : List Opcode) (acc : StatAcc),
    (ops.foldl (statStep ow gw) acc).subs
      = acc.subs ++ (ops.filter (fun op => op.tag == DTag.replace
          && op.a2 - op.a1 == 1 && op.b2 - op.b1 == 1)).map
          (fun op => (chunkSlice ow op.a1 op.a2, chunkSlice gw op.b1 op.b2)) := by
  intro ops
  induction ops with
  | nil =>
    intro acc
    simp
  | cons op rest ih =>
    intro acc
    simp only [List.foldl_cons]
    rw [ih]
    rcases op with ⟨tag, a1, a2, b1, b2⟩
    cases tag with
    | equal => simp [statStep, List.filter_cons]
    | delete => simp [statStep, List.filter_cons]
    | insert => simp [statStep, List.filter_cons]
    | replace =>
      by_cases hcond : a2 - a1 = 1 ∧ b2 - b1 = 1
      · simp [statStep, List.filter_cons, hcond, hcond.1, hcond.2]
      · simp only [statStep]
        rw [if_neg hcond]
        have hb : ((Opcode.mk .replace a1 a2 b1 b2).tag == DTag.replace
            && a2 - a1 == 1 && b2 - b1 == 1) = false := by
          rcases Decidable.not_and_iff_or_not.1 hcond with h1 | h1 <;> simp [h1]
        simp [List.filter_cons, hb]
        rw [if_neg hcond]

/-- C6: the substitution list of the diff statistics is exactly the
`(original chunk, generated chunk)` pairs of the one-word-for-one-word
replace opcodes, in opcode order, truncated to the first 10; and the
concrete scenario: `The quick fox jumps.` vs `The quick fox leaps.`
reports changed 1, unchanged 3 and one substitution pair with the
punctuation attached to the whitespace-split words. -/
theorem c6_theorem :
    (∀ (ow gw : List Str) (ops : List Opcode),
      (statsOfOpcodes ow gw ops).substitutions
        = ((ops.filter (fun op => op.tag == DTag.replace
            && op.a2 - op.a1 == 1 && op.b2 - op.b1 == 1)).map
            (fun op => (chunkSlice ow op.a1 op.a2, chunkSlice gw op.b1 op.b2))).take 10) ∧
    ((highlightStats (strL ("The quick fox jumps.")) (strL ("The quick fox leaps."))).changed
        = 1 ∧
      (highlightStats (strL ("The quick fox jumps.")) (strL ("The quick fox leaps."))).unchanged
        = 3 ∧
      (highlightStats (strL ("The quick fox jumps.")) (strL ("The quick fox leaps."))).substitutions
        = [(strL ("jumps."), strL ("leaps."))]) := by
  refine ⟨?_, by decide, by decide, by decide⟩
  intro ow gw ops
  show ((ops.foldl (statStep ow gw) (StatAcc.mk 0 0 0 0 [])).subs).take 10 = _
  rw [statStep_subs ow gw ops (StatAcc.mk 0 0 0 0 [])]
  simp

theorem mem_insertByCountDesc (counts : Str → Nat) (x : Str) : ∀ (l : List Str) (y : Str),
    y ∈ insertByCountDesc counts x l ↔ y = x ∨ y ∈ l := by
  intro l
  induction l with
  | nil =>
    intro y
    simp [insertByCountDesc]
  | cons z t ih =>
    intro y
    by_cases hc : counts z ≤ counts x
    · simp [insertByCountDesc, hc]
    · simp only [insertByCountDesc, hc, if_false, List.mem_cons, ih y]
      tauto

theorem mem_sortByCountDesc (counts : Str → Nat) : ∀ (l : List Str) (y : Str),
    y ∈ sortByCountDesc counts l ↔ y ∈ l := by
  intro l
  induction l with
  | nil =>
    intro y
    simp [sortByCountDesc]
  | cons x t ih =>
    intro y
    simp only [sortByCountDesc, mem_insertByCountDesc, ih y, List.mem_cons]

theorem pairwise_insertByCountDesc (counts : Str → Nat) (x : Str) :
    ∀ (l : List Str), l.Pairwise (fun a b => counts b ≤ counts a) →
      (insertByCountDesc counts x l).Pairwise (fun a b => counts b ≤ counts a) := by
  intro l
  induction l with
  | nil =>
    intro _
    simp [insertByCountDesc]
  | cons z t ih =>
    intro hp
    by_cases hc : counts z ≤ counts x
    · simp only [insertByCountDesc, hc, if_true]
      refine List.Pairwise.cons ?_ hp
      intro b hb
      rcases List.mem_cons.1 hb with rfl | hb2
      · exact hc
      · exact le_trans (List.rel_of_pairwise_cons hp hb2) hc
    · simp only [insertByCountDesc, hc, if_false]
      refine List.Pairwise.cons ?_ (ih (List.Pairwise.of_cons hp))
      intro b hb
      rcases (mem_insertByCountDesc counts x t b).1 hb with rfl | hb2
      · omega
      · exact List.rel_of_pairwise_cons hp hb2

theorem pairwise_sortByCountDesc (counts : Str → Nat) : ∀ (l : List Str),
    (sortByCountDesc counts l).Pairwise (fun a b => counts b ≤ counts a) := by
  intro l
  induction l with
  | nil => simp [sortByCountDesc]
  | cons x t ih => exact pairwise_insertByCountDesc counts x _ ih

theorem mem_firstOccsAux : ∀ (fuel : Nat) (l : List Str) (y : Str),
    y ∈ firstOccsAux fuel l → y ∈ l := by
  intro fuel
  induction fuel with
  | zero =>
    intro l y hy
    match l with
    | [] => simp [firstOccsAux] at hy
    | x :: xs => simp [firstOccsAux] at hy
  | succ fuel ih =>
    intro l y hy
    match l with
    | [] => simp [firstOccsAux] at hy
    | x :: xs =>
      simp only [firstOccsAux, List.mem_cons] at hy
      rcases hy with rfl | hy
      · simp
      · have h1 := ih _ y hy
        exact List.mem_cons.2 (Or.inr ((List.filter_sublist xs).subset h1))

theorem pairwise_filterMap_rel {α β : Type} (f : α → Option β) (R : α → α → Prop)
    (S : β → β → Prop)
    (H : ∀ a b, R a b → ∀ x y, f a = some x → f b = some y → S x y) :
    ∀ l : List α, l.Pairwise R → (l.filterMap f).Pairwise S := by
  intro l
  induction l with
  | nil =>
    intro _
    simp
  | cons a t ih =>
    intro hp
    rw [List.filterMap_cons]
    rcases hf : f a with _ | x
    · exact ih (List.Pairwise.of_cons hp)
    · refine List.Pairwise.cons ?_ (ih (List.Pairwise.of_cons hp))
      intro y hy
      rcases List.mem_filterMap.1 hy with ⟨b, hb, hfb⟩
      exact H a b (List.rel_of_pairwise_cons hp hb) x y hf hfb

/-- C5 (amended): for a text with a non-empty content-word list, the
global repetition report lists at most 5 entries, ordered by descending
count, each meeting the harvested threshold max(3, floor(0.05 n))
(Python `int` truncation, not rounding), and each carrying its stem's
count, the exact count/n ratio, and the FIRST-seen (not most-frequent)
surface form of the stem.  The tokenizer and stemmer are universally
quantified collaborator parameters. -/
theorem c5_theorem (tok : Str → List Str) (stem : Str → Str) (nltkStops : List Str)
    (text : Str) (ws : Nat) (hs : pyStrip text ≠ [])
    (h : contentWordsOf tok nltkStops text ≠ []) :
    (detect tok stem nltkStops text ws).top_global_repetitions.length ≤ 5 ∧
    (detect tok stem nltkStops text ws).top_global_repetitions.Pairwise
      (fun e1 e2 => e2.count ≤ e1.count) ∧
    ∀ e ∈ (detect tok stem nltkStops text ws).top_global_repetitions,
      repThreshold (contentWordsOf tok nltkStops text).length ≤ e.count ∧
      e.ratio = (e.count : ℚ) / (contentWordsOf tok nltkStops text).length ∧
      ∃ s ∈ (contentWordsOf tok nltkStops text).map stem,
        e.count = ((contentWordsOf tok nltkStops text).map stem).count s ∧
        e.word = firstSurfaceOf (contentWordsOf tok nltkStops text) stem s := by
  have hd : (detect tok stem nltkStops text ws).top_global_repetitions
      = ((sortByCountDesc (fun s => ((contentWordsOf tok nltkStops text).map stem).count s)
          (firstOccs ((contentWordsOf tok nltkStops text).map stem))).take 5).filterMap
          (fun s =>
            if repThreshold (contentWordsOf tok nltkStops text).length ≤
                ((contentWordsOf tok nltkStops text).map stem).count s then
              some (RepEntry.mk (firstSurfaceOf (contentWordsOf tok nltkStops text) stem s)
                (((contentWordsOf tok nltkStops text).map stem).count s)
                ((((contentWordsOf tok nltkStops text).map stem).count s : ℚ) /
                  (contentWordsOf tok nltkStops text).length))
            else none) := by
    unfold detect
    rw [if_neg hs, if_neg h]
  refine ⟨?_, ?_, ?_⟩
  · rw [hd]
    calc (_ : Nat) ≤ _ := List.length_filterMap_le _ _
    _ ≤ 5 := List.length_take_le 5 _
  · rw [hd]
    refine pairwise_filterMap_rel _ (fun a b =>
      ((contentWordsOf tok nltkStops text).map stem).count b ≤
        ((contentWordsOf tok nltkStops text).map stem).count a) _ ?_ _
      (List.Pairwise.sublist (List.take_sublist 5 _) (pairwise_sortByCountDesc _ _))
    intro a b hR x y hx hy
    split at hx
    · split at hy
      · cases hx
        cases hy
        simpa using hR
      · cases hy
    · cases hx
  · intro e he
    rw [hd] at he
    rcases List.mem_filterMap.1 he with ⟨s, hs5, hf⟩
    split at hf
    · cases hf
      refine ⟨by assumption, by simp, s, ?_, by simp, by simp⟩
      have h1 : s ∈ sortByCountDesc (fun s =>
          ((contentWordsOf tok nltkStops text).map stem).count s)
          (firstOccs ((contentWordsOf tok nltkStops text).map stem)) :=
        (List.take_sublist 5 _).subset hs5
      have h2 := (mem_sortByCountDesc _ _ s).1 h1
      exact mem_firstOccsAux _ _ s h2
    · cases hf

/-- C5 counterexample: on the text `using used used` (with a
whitespace tokenizer and a Porter-style stemmer sending all three
tokens to the stem `use`), the report's entry carries the first-seen
surface form `using`, while the claim demands the most-frequent surface
form, which is `used`. -/
theorem c5_counterexample :
    ((detect tokC stmC [] (strL ("using used used")) 50).top_global_repetitions.map
      (fun e => (e.word, e.count))) = [(strL ("using"), 3)] ∧
    mostFreqSurface (contentWordsOf tokC [] (strL ("using used used"))) stmC (strL ("use"))
      = strL ("used") ∧
    (strL ("using") : Str) ≠ strL ("used") := by
  refine ⟨by decide, by decide, by decide⟩

theorem c5_witness :
    (pyStrip (strL ("using used used")) ≠ [] ∧
      contentWordsOf tokC [] (strL ("using used used")) ≠ []) ∧
    ((detect tokC stmC [] (strL ("using used used")) 50).top_global_repetitions.length ≤ 5 ∧
      (detect tokC stmC [] (strL ("using used used")) 50).top_global_repetitions.Pairwise
        (fun e1 e2 => e2.count ≤ e1.count) ∧
      ∀ e ∈ (detect tokC stmC [] (strL ("using used used")) 50).top_global_repetitions,
        repThreshold (contentWordsOf tokC [] (strL ("using used used"))).length ≤ e.count ∧
        e.ratio = (e.count : ℚ) / (contentWordsOf tokC [] (strL ("using used used"))).length ∧
        ∃ s ∈ (contentWordsOf tokC [] (strL ("using used used"))).map stmC,
          e.count = ((contentWordsOf tokC [] (strL ("using used used"))).map stmC).count s ∧
          e.word = firstSurfaceOf (contentWordsOf tokC [] (strL ("using used used"))) stmC s) :=
  ⟨⟨by decide, by decide⟩,
    c5_theorem tokC stmC [] (strL ("using used used")) 50 (by decide) (by decide)⟩

theorem diagD_le (w : List Str) : ∀ i, diagD w i ≤ i + 1 := by
  intro i
  induction i with
  | zero =>
    by_cases h : isPopular w (w.getD 0 []) <;> simp only [diagD, h] <;> simp
  | succ i ih =>
    by_cases h : isPopular w (w.getD (i + 1) []) <;>
      simp only [diagD, h, Bool.false_eq_true, if_true, if_false] <;> omega

theorem diagD_pop (w : List Str) (i : Nat) (h : isPopular w (w.getD i []) = true) :
    diagD w i = 0 := by
  cases i <;> simp only [diagD, h, if_true]

theorem diagD_not_pop (w : List Str) (i : Nat) (h : isPopular w (w.getD i []) = false) :
    diagD w i = (if i = 0 then 0 else diagD w (i - 1)) + 1 := by
  cases i <;> simp only [diagD, h, Bool.false_eq_true, if_false] <;> simp

theorem diagD_le_maxD (w : List Str) : ∀ (r i : Nat), i < r → diagD w i ≤ maxD w r := by
  intro r
  induction r with
  | zero =>
    intro i hi
    omega
  | succ r ih =>
    intro i hi
    rcases Nat.lt_succ_iff_lt_or_eq.1 hi with h | rfl
    · exact le_trans (ih i h) (by simp [maxD])
    · simp [maxD]

theorem maxD_le (w : List Str) : ∀ r, maxD w r ≤ r := by
  intro r
  induction r with
  | zero => simp [maxD]
  | succ r ih =>
    simp only [maxD]
    have := diagD_le w r
    omega

theorem mem_b2jGet (b : List Str) (x : Str) (j : Nat) (hj : j ∈ b2jGet b x) :
    j < b.length ∧ b.get? j = some x ∧ isPopular b x = false := by
  unfold b2jGet at hj
  by_cases hp : isPopular b x
  · rw [if_pos hp] at hj
    simp at hj
  · rw [if_neg hp] at hj
    unfold b2jAll at hj
    have h2 := List.mem_filter.1 hj
    exact ⟨List.mem_range.1 h2.1, by simpa using h2.2, by simpa using hp⟩

theorem get?_getD (w : List Str) (i : Nat) (hi : i < w.length) :
    w.get? i = some (w.getD i []) := by
  rcases hg : w.get? i with _ | a
  · rw [List.get?_eq_none] at hg
    omega
  · rw [List.getD_eq_get?, hg]
    rfl

theorem getD_eq_of_get? (w : List Str) (j : Nat) (x : Str) (h : w.get? j = some x) :
    w.getD j [] = x := by
  rw [List.getD_eq_get?, h]
  rfl

theorem range_split (n i : Nat) (hi : i < n) :
    List.range n = List.range i ++ i :: List.range' (i + 1) (n - i - 1) := by
  rw [List.range_eq_range', List.range_eq_range']
  have h1 := List.range'_append 0 i (n - i) 1
  have h2 : (n - i) + i = n := by omega
  rw [h2] at h1
  rw [← h1]
  congr 1
  have h3 : n - i = (n - i - 1) + 1 := by omega
  rw [h3, show 0 + 1 * i = i by omega, List.range'_succ]
  simp

theorem b2jGet_decomp (w : List Str) (i : Nat) (hi : i < w.length)
    (hp : isPopular w (w.getD i []) = false) :
    ∃ L1 L2, b2jGet w (w.getD i []) = L1 ++ i :: L2 ∧
      (∀ j ∈ L1, j < i ∧ j < w.length ∧ w.get? j = some (w.getD i [])) ∧
      (∀ j ∈ L2, i < j ∧ j < w.length ∧ w.get? j = some (w.getD i [])) := by
  unfold b2jGet
  rw [if_neg (by rw [hp]; exact Bool.false_ne_true)]
  unfold b2jAll
  rw [range_split w.length i hi, List.filter_append, List.filter_cons]
  rw [if_pos (by simpa using get?_getD w i hi)]
  refine ⟨_, _, rfl, ?_, ?_⟩
  · intro j hj
    have h2 := List.mem_filter.1 hj
    exact ⟨List.mem_range.1 h2.1, lt_trans (List.mem_range.1 h2.1) hi, by simpa using h2.2⟩
  · intro j hj
    have h2 := List.mem_filter.1 hj
    rcases List.mem_range'.1 h2.1 with ⟨k, hk, rfl⟩
    exact ⟨by omega, by omega, by simpa using h2.2⟩

theorem innerLoop_cons (blo bhi : Nat) (prev : Nat → Nat) (i j : Nat) (js : List Nat)
    (best : Best) (new : Nat → Nat) :
    innerLoop blo bhi prev i (j :: js) best new =
      if j < blo then innerLoop blo bhi prev i js best new
      else if bhi ≤ j then (best, new)
      else
        innerLoop blo bhi prev i js
          (if best.sz < (if j = 0 then 0 else prev (j - 1)) + 1 then
            Best.mk (i + 1 - ((if j = 0 then 0 else prev (j - 1)) + 1))
              (j + 1 - ((if j = 0 then 0 else prev (j - 1)) + 1))
              ((if j = 0 then 0 else prev (j - 1)) + 1)
           else best)
          (fun j' => if j' = j then (if j = 0 then 0 else prev (j - 1)) + 1 else new j') := rfl

theorem inner_append (n : Nat) (prev : Nat → Nat) (i : Nat) :
    ∀ (js1 js2 : List Nat) (best : Best) (new : Nat → Nat),
      (∀ j ∈ js1, j < n) →
      innerLoop 0 n prev i (js1 ++ js2) best new =
        innerLoop 0 n prev i js2
          (innerLoop 0 n prev i js1 best new).1
          (innerLoop 0 n prev i js1 best new).2 := by
  intro js1
  induction js1 with
  | nil => intro js2 best new _; rfl
  | cons j js ih =>
    intro js2 best new hlt
    have hj := hlt j (by simp)
    rw [List.cons_append, innerLoop_cons, innerLoop_cons]
    simp only [if_neg (show ¬j < 0 by omega), if_neg (show ¬n ≤ j by omega)]
    exact ih js2 _ _ (fun j2 hj2 => hlt j2 (by simp [hj2]))

theorem inner_no_update (n : Nat) (prev : Nat → Nat) (i : Nat) :
    ∀ (js : List Nat) (best : Best) (new : Nat → Nat),
      (∀ j ∈ js, j < n) →
      (∀ j ∈ js, (if j = 0 then 0 else prev (j - 1)) + 1 ≤ best.sz) →
      ∃ newR, innerLoop 0 n prev i js best new = (best, newR) ∧
        ∀ j', newR j' = new j' ∨
          (j' ∈ js ∧ newR j' = (if j' = 0 then 0 else prev (j' - 1)) + 1) := by
  intro js
  induction js with
  | nil => exact fun best new _ _ => ⟨new, rfl, fun j' => Or.inl rfl⟩
  | cons j js ih =>
    intro best new hlt hk
    have hj := hlt j (by simp)
    have hkj := hk j (by simp)
    rw [innerLoop_cons, if_neg (by omega), if_neg (by omega), if_neg (by omega)]
    obtain ⟨newR, heq, hch⟩ :=
      ih best (fun j' => if j' = j then (if j = 0 then 0 else prev (j - 1)) + 1 else new j')
        (fun j2 hj2 => hlt j2 (by simp [hj2])) (fun j2 hj2 => hk j2 (by simp [hj2]))
    refine ⟨newR, heq, fun j' => ?_⟩
    rcases hch j' with h | ⟨hm, hv⟩
    · by_cases hij : j' = j
      · subst hij
        rw [if_pos rfl] at h
        exact Or.inr ⟨by simp, h⟩
      · rw [if_neg hij] at h
        exact Or.inl h
    · exact Or.inr ⟨by simp [hm], hv⟩

theorem row_step (w : List Str) (i : Nat) (hi : i < w.length)
    (prev : Nat → Nat) (s : Nat)
    (hP1 : ∀ j, prev j ≤ diagD w j)
    (hP2 : ∀ j, prev j ≤ i)
    (hP3 : ∀ j, prev j ≤ (if i = 0 then 0 else diagD w (i - 1)))
    (hP4 : 0 < i → prev (i - 1) = diagD w (i - 1))
    (hbs : s + maxD w i ≤ i) :
    ∃ s' newR,
      innerLoop 0 w.length prev i (b2jGet w (w.getD i []))
          (Best.mk s s (maxD w i)) (fun _ => 0)
        = (Best.mk s' s' (maxD w (i + 1)), newR) ∧
      s' + maxD w (i + 1) ≤ i + 1 ∧
      (∀ j, newR j ≤ diagD w j) ∧
      (∀ j, newR j ≤ i + 1) ∧
      (∀ j, newR j ≤ diagD w i) ∧
      newR i = diagD w i := by
  by_cases hp : isPopular w (w.getD i []) = true
  · have hb : b2jGet w (w.getD i []) = [] := by unfold b2jGet; rw [if_pos hp]
    have hd0 : diagD w i = 0 := diagD_pop w i hp
    have hm : maxD w (i + 1) = maxD w i := by simp only [maxD]; omega
    refine ⟨s, fun _ => 0, ?_, ?_, ?_, ?_, ?_, ?_⟩
    · rw [hb, hm]; rfl
    · omega
    · intro j; exact Nat.zero_le _
    · intro j; exact Nat.zero_le _
    · intro j; exact Nat.zero_le _
    · simp [hd0]
  · have hp' : isPopular w (w.getD i []) = false := by simpa using hp
    obtain ⟨L1, L2, hdec, hL1, hL2⟩ := b2jGet_decomp w i hi hp'
    have hdi : diagD w i = (if i = 0 then 0 else diagD w (i - 1)) + 1 := diagD_not_pop w i hp'
    have hpopj : ∀ j, w.get? j = some (w.getD i []) → isPopular w (w.getD j []) = false := by
      intro j hj
      rw [getD_eq_of_get? w j _ hj]
      exact hp'
    have hdj : ∀ j, w.get? j = some (w.getD i []) →
        diagD w j = (if j = 0 then 0 else diagD w (j - 1)) + 1 :=
      fun j hj => diagD_not_pop w j (hpopj j hj)
    have hki : (if i = 0 then 0 else prev (i - 1)) + 1 = diagD w i := by
      rw [hdi]
      by_cases h0 : i = 0
      · rw [if_pos h0, if_pos h0]
      · rw [if_neg h0, if_neg h0, hP4 (by omega)]
    have hkd : ∀ j, w.get? j = some (w.getD i []) →
        (if j = 0 then 0 else prev (j - 1)) + 1 ≤ diagD w j := by
      intro j hj
      rw [hdj j hj]
      by_cases h0 : j = 0
      · rw [if_pos h0, if_pos h0]
      · rw [if_neg h0, if_neg h0]
        exact Nat.add_le_add_right (hP1 _) 1
    have hkdi : ∀ j, (if j = 0 then 0 else prev (j - 1)) + 1 ≤ diagD w i := by
      intro j
      rw [hdi]
      by_cases h0 : j = 0
      · rw [if_pos h0]
        omega
      · rw [if_neg h0]
        exact Nat.add_le_add_right (hP3 _) 1
    have hkb : ∀ j, (if j = 0 then 0 else prev (j - 1)) + 1 ≤ i + 1 := by
      intro j
      by_cases h0 : j = 0
      · rw [if_pos h0]
        omega
      · rw [if_neg h0]
        exact Nat.add_le_add_right (hP2 _) 1
    have hlt1 : ∀ j ∈ L1, j < w.length := fun j hj => (hL1 j hj).2.1
    have hlt2 : ∀ j ∈ L2, j < w.length := fun j hj => (hL2 j hj).2.1
    have hk1 : ∀ j ∈ L1, (if j = 0 then 0 else prev (j - 1)) + 1 ≤
        (Best.mk s s (maxD w i)).sz := by
      intro j hj
      show (if j = 0 then 0 else prev (j - 1)) + 1 ≤ maxD w i
      exact le_trans (hkd j (hL1 j hj).2.2) (diagD_le_maxD w i j (hL1 j hj).1)
    obtain ⟨new1, heq1, hch1⟩ :=
      inner_no_update w.length prev i L1 (Best.mk s s (maxD w i)) (fun _ => 0) hlt1 hk1
    have h1 : innerLoop 0 w.length prev i (b2jGet w (w.getD i []))
        (Best.mk s s (maxD w i)) (fun _ => 0)
        = innerLoop 0 w.length prev i (i :: L2) (Best.mk s s (maxD w i)) new1 := by
      rw [hdec, inner_append w.length prev i L1 (i :: L2) (Best.mk s s (maxD w i))
        (fun _ => 0) hlt1, heq1]
    obtain ⟨s', hbeq, hsb⟩ : ∃ s',
        (if (Best.mk s s (maxD w i)).sz < (if i = 0 then 0 else prev (i - 1)) + 1 then
          Best.mk (i + 1 - ((if i = 0 then 0 else prev (i - 1)) + 1))
            (i + 1 - ((if i = 0 then 0 else prev (i - 1)) + 1))
            ((if i = 0 then 0 else prev (i - 1)) + 1)
         else Best.mk s s (maxD w i)) = Best.mk s' s' (maxD w (i + 1)) ∧
        s' + maxD w (i + 1) ≤ i + 1 := by
      rw [hki]
      show ∃ s', (if maxD w i < diagD w i then _ else _) = _ ∧ _
      by_cases hcase : maxD w i < diagD w i
      · have h5 : maxD w (i + 1) = diagD w i := by simp only [maxD]; omega
        have h6 := diagD_le w i
        exact ⟨i + 1 - diagD w i, by rw [if_pos hcase, h5], by rw [h5]; omega⟩
      · have h5 : maxD w (i + 1) = maxD w i := by simp only [maxD]; omega
        exact ⟨s, by rw [if_neg hcase, h5], by rw [h5]; omega⟩
    have h2 : innerLoop 0 w.length prev i (i :: L2) (Best.mk s s (maxD w i)) new1
        = innerLoop 0 w.length prev i L2 (Best.mk s' s' (maxD w (i + 1)))
            (fun j' => if j' = i then (if i = 0 then 0 else prev (i - 1)) + 1 else new1 j') := by
      rw [innerLoop_cons, if_neg (show ¬i < 0 by omega),
        if_neg (show ¬w.length ≤ i by omega), hbeq]
    have hdile : diagD w i ≤ maxD w (i + 1) := by simp only [maxD]; omega
    have hk2 : ∀ j ∈ L2, (if j = 0 then 0 else prev (j - 1)) + 1 ≤
        (Best.mk s' s' (maxD w (i + 1))).sz := by
      intro j _
      show (if j = 0 then 0 else prev (j - 1)) + 1 ≤ maxD w (i + 1)
      exact le_trans (hkdi j) hdile
    obtain ⟨new3, heq3, hch3⟩ :=
      inner_no_update w.length prev i L2 (Best.mk s' s' (maxD w (i + 1)))
        (fun j' => if j' = i then (if i = 0 then 0 else prev (i - 1)) + 1 else new1 j')
        hlt2 hk2
    have hval : ∀ j', new3 j' = 0 ∨ (j' = i ∧ new3 j' = diagD w i) ∨
        ((j' ∈ L1 ∨ j' ∈ L2) ∧ new3 j' = (if j' = 0 then 0 else prev (j' - 1)) + 1) := by
      intro j'
      rcases hch3 j' with h | ⟨hm, hv⟩
      · by_cases h0 : j' = i
        · subst h0
          right; left
          exact ⟨rfl, by rw [h]; simpa using hki⟩
        · have h' : new3 j' = new1 j' := by rw [h]; simp only [if_neg h0]
          rcases hch1 j' with h1 | ⟨hm1, hv1⟩
          · left; rw [h', h1]
          · right; right; exact ⟨Or.inl hm1, by rw [h']; exact hv1⟩
      · right; right; exact ⟨Or.inr hm, hv⟩
    refine ⟨s', new3, ?_, hsb, ?_, ?_, ?_, ?_⟩
    · rw [h1, h2, heq3]
    · intro j
      rcases hval j with h | ⟨he, hv⟩ | ⟨hm, hv⟩
      · rw [h]; exact Nat.zero_le _
      · subst he; rw [hv]
      · rw [hv]
        rcases hm with hm | hm
        · exact hkd j (hL1 j hm).2.2
        · exact hkd j (hL2 j hm).2.2
    · intro j
      rcases hval j with h | ⟨he, hv⟩ | ⟨hm, hv⟩
      · rw [h]; exact Nat.zero_le _
      · rw [hv]; exact diagD_le w i |>.trans (by omega)
      · rw [hv]; exact hkb j
    · intro j
      rcases hval j with h | ⟨he, hv⟩ | ⟨hm, hv⟩
      · rw [h]; exact Nat.zero_le _
      · rw [hv]
      · rw [hv]; exact hkdi j
    · rcases hch3 i with h | ⟨hm, _⟩
      · rw [h]; simpa using hki
      · exact absurd (hL2 i hm).1 (lt_irrefl i)

theorem outerLoop_cons (a : List Str) (b2j : Str → List Nat) (blo bhi : Nat)
    (i : Nat) (is : List Nat) (best : Best) (j2len : Nat → Nat) :
    outerLoop a b2j blo bhi (i :: is) best j2len =
      outerLoop a b2j blo bhi is
        (innerLoop blo bhi j2len i (b2j (a.getD i [])) best (fun _ => 0)).1
        (innerLoop blo bhi j2len i (b2j (a.getD i [])) best (fun _ => 0)).2 := rfl

theorem outer_inv (w : List Str) : ∀ (len r : Nat), r + len = w.length →
    ∀ (s : Nat) (prev : Nat → Nat),
      s + maxD w r ≤ r →
      (∀ j, prev j ≤ diagD w j) →
      (∀ j, prev j ≤ r) →
      (∀ j, prev j ≤ (if r = 0 then 0 else diagD w (r - 1))) →
      (0 < r → prev (r - 1) = diagD w (r - 1)) →
      ∃ s', outerLoop w (b2jGet w) 0 w.length (List.range' r len)
          (Best.mk s s (maxD w r)) prev
        = Best.mk s' s' (maxD w w.length) ∧ s' + maxD w w.length ≤ w.length := by
  intro len
  induction len with
  | zero =>
    intro r hr s prev hbs _ _ _ _
    have hr' : r = w.length := by omega
    subst hr'
    exact ⟨s, rfl, hbs⟩
  | succ len ih =>
    intro r hr s prev hbs hP1 hP2 hP3 hP4
    have hrlt : r < w.length := by omega
    obtain ⟨s', newR, heq, hs', hQ1, hQ2, hQ3, hQ4⟩ :=
      row_step w r hrlt prev s hP1 hP2 hP3 hP4 hbs
    rw [List.range'_succ, outerLoop_cons, heq]
    exact ih (r + 1) (by omega) s' newR hs' hQ1 hQ2
      (fun j => by rw [if_neg (Nat.succ_ne_zero r)]; simpa using hQ3 j)
      (fun _ => by simpa using hQ4)

theorem extendLoopL_mk (p : Str → Bool) (a b : List Str) (alo blo fuel bi bj bsz : Nat) :
    extendLoopL p a b alo blo (fuel + 1) (Best.mk bi bj bsz) =
      if alo < bi ∧ blo < bj ∧ p (b.getD (bj - 1) []) = true ∧
          a.getD (bi - 1) [] = b.getD (bj - 1) [] then
        extendLoopL p a b alo blo fuel (Best.mk (bi - 1) (bj - 1) (bsz + 1))
      else Best.mk bi bj bsz := rfl

theorem extendLoopR_mk (p : Str → Bool) (a b : List Str) (ahi bhi fuel bi bj bsz : Nat) :
    extendLoopR p a b ahi bhi (fuel + 1) (Best.mk bi bj bsz) =
      if bi + bsz < ahi ∧ bj + bsz < bhi ∧ p (b.getD (bj + bsz) []) = true ∧
          a.getD (bi + bsz) [] = b.getD (bj + bsz) [] then
        extendLoopR p a b ahi bhi fuel (Best.mk bi bj (bsz + 1))
      else Best.mk bi bj bsz := rfl

theorem extendLoopL_diag (w : List Str) :
    ∀ (s fuel m : Nat), s < fuel →
      extendLoopL (fun x => !isbjunk x) w w 0 0 fuel (Best.mk s s m)
        = Best.mk 0 0 (m + s) := by
  intro s
  induction s with
  | zero =>
    intro fuel m hf
    cases fuel with
    | zero => omega
    | succ fuel =>
      rw [extendLoopL_mk,
        if_neg (show ¬(0 < 0 ∧ 0 < 0 ∧ (fun x => !isbjunk x) (w.getD (0 - 1) []) = true ∧
            w.getD (0 - 1) [] = w.getD (0 - 1) []) from fun h => absurd h.1 (by omega))]
      simp
  | succ s ih =>
    intro fuel m hf
    cases fuel with
    | zero => omega
    | succ fuel =>
      rw [extendLoopL_mk,
        if_pos (show 0 < s + 1 ∧ 0 < s + 1 ∧
            (fun x => !isbjunk x) (w.getD (s + 1 - 1) []) = true ∧
            w.getD (s + 1 - 1) [] = w.getD (s + 1 - 1) [] from
          ⟨Nat.succ_pos s, Nat.succ_pos s, by simp [isbjunk], rfl⟩)]
      exact (ih fuel (m + 1) (by omega)).trans (by congr 1; omega)

theorem extendLoopR_diag (w : List Str) :
    ∀ (fuel M : Nat), M ≤ w.length → w.length - M < fuel →
      extendLoopR (fun x => !isbjunk x) w w w.length w.length fuel (Best.mk 0 0 M)
        = Best.mk 0 0 w.length := by
  intro fuel
  induction fuel with
  | zero =>
    intro M hM hf
    omega
  | succ fuel ih =>
    intro M hM hf
    by_cases hcase : M < w.length
    · rw [extendLoopR_mk,
        if_pos (show 0 + M < w.length ∧ 0 + M < w.length ∧
            (fun x => !isbjunk x) (w.getD (0 + M) []) = true ∧
            w.getD (0 + M) [] = w.getD (0 + M) [] from
          ⟨by omega, by omega, by simp [isbjunk], rfl⟩)]
      exact ih (M + 1) (by omega) (by omega)
    · rw [extendLoopR_mk,
        if_neg (show ¬(0 + M < w.length ∧ 0 + M < w.length ∧
            (fun x => !isbjunk x) (w.getD (0 + M) []) = true ∧
            w.getD (0 + M) [] = w.getD (0 + M) []) from fun h => absurd h.1 (by omega))]
      have hM' : M = w.length := by omega
      rw [hM']

theorem extendLoopL_false (a b : List Str) (alo blo fuel : Nat) (best : Best) :
    extendLoopL (fun x => isbjunk x) a b alo blo fuel best = best := by
  cases fuel with
  | zero => rfl
  | succ fuel =>
    have hne : ¬(alo < best.i ∧ blo < best.j ∧
        (fun x => isbjunk x) (b.getD (best.j - 1) []) = true ∧
        a.getD (best.i - 1) [] = b.getD (best.j - 1) []) :=
      fun h => absurd h.2.2.1 (by simp [isbjunk])
    show (if _ then _ else _) = best
    rw [if_neg hne]

theorem extendLoopR_false (a b : List Str) (ahi bhi fuel : Nat) (best : Best) :
    extendLoopR (fun x => isbjunk x) a b ahi bhi fuel best = best := by
  cases fuel with
  | zero => rfl
  | succ fuel =>
    have hne : ¬(best.i + best.sz < ahi ∧ best.j + best.sz < bhi ∧
        (fun x => isbjunk x) (b.getD (best.j + best.sz) []) = true ∧
        a.getD (best.i + best.sz) [] = b.getD (best.j + best.sz) []) :=
      fun h => absurd h.2.2.1 (by simp [isbjunk])
    show (if _ then _ else _) = best
    rw [if_neg hne]

theorem extendLoopL_stop (p : Str → Bool) (a b : List Str) (alo blo fuel bi bj bsz : Nat)
    (h : ¬alo < bi) :
    extendLoopL p a b alo blo fuel (Best.mk bi bj bsz) = Best.mk bi bj bsz := by
  cases fuel with
  | zero => rfl
  | succ fuel => rw [extendLoopL_mk, if_neg (fun hc => h hc.1)]

theorem extendLoopR_stop (p : Str → Bool) (a b : List Str) (ahi bhi fuel bi bj bsz : Nat)
    (h : ¬bi + bsz < ahi) :
    extendLoopR p a b ahi bhi fuel (Best.mk bi bj bsz) = Best.mk bi bj bsz := by
  cases fuel with
  | zero => rfl
  | succ fuel => rw [extendLoopR_mk, if_neg (fun hc => h hc.1)]

theorem flm_self (w : List Str) :
    findLongestMatch w w (b2jGet w) 0 w.length 0 w.length = Best.mk 0 0 w.length := by
  obtain ⟨s', houter, hs'⟩ := outer_inv w w.length 0 (by omega) 0 (fun _ => 0)
    (by simp [maxD]) (fun j => Nat.zero_le _) (fun j => Nat.zero_le _)
    (fun j => Nat.zero_le _) (fun h => absurd h (by omega))
  have houter' : outerLoop w (b2jGet w) 0 w.length (List.range' 0 (w.length - 0))
      (Best.mk 0 0 0) (fun _ => 0) = Best.mk s' s' (maxD w w.length) := by
    rw [show w.length - 0 = w.length from rfl]
    exact houter
  unfold findLongestMatch
  simp only [houter']
  rw [extendLoopL_diag w s' (s' + 1) (maxD w w.length) (by omega)]
  rw [extendLoopR_diag w (w.length + 1) (maxD w w.length + s') (by omega) (by omega)]
  rw [extendLoopL_false, extendLoopR_false]

theorem flm_diag_empty (w : List Str) (r : Nat) :
    findLongestMatch w w (b2jGet w) r r r r = Best.mk r r 0 := by
  have houter : outerLoop w (b2jGet w) r r (List.range' r (r - r))
      (Best.mk r r 0) (fun _ => 0) = Best.mk r r 0 := by
    rw [show r - r = 0 by omega]
    rfl
  unfold findLongestMatch
  simp only [houter]
  rw [extendLoopL_stop (fun x => !isbjunk x) w w r r _ r r 0 (by omega)]
  rw [extendLoopR_stop (fun x => !isbjunk x) w w r r _ r r 0 (by omega)]
  rw [extendLoopL_stop (fun x => isbjunk x) w w r r _ r r 0 (by omega)]
  rw [extendLoopR_stop (fun x => isbjunk x) w w r r _ r r 0 (by omega)]

theorem matchingBlocksAux_empty (w : List Str) (r : Nat) :
    ∀ fuel, matchingBlocksAux w w (b2jGet w) fuel r r r r = [] := by
  intro fuel
  cases fuel with
  | zero => rfl
  | succ fuel =>
    simp only [matchingBlocksAux, flm_diag_empty w r]
    simp

theorem matchingBlocksAux_self (w : List Str) (hw : w ≠ []) :
    matchingBlocksAux w w (b2jGet w) (w.length + w.length + 1) 0 w.length 0 w.length
      = [(0, 0, w.length)] := by
  have hn : 0 < w.length := List.length_pos.2 hw
  simp only [matchingBlocksAux, flm_self w]
  simp [hn, matchingBlocksAux_empty w]

theorem matchingBlocks_self (w : List Str) (hw : w ≠ []) :
    matchingBlocks w w = [(0, 0, w.length), (w.length, w.length, 0)] := by
  unfold matchingBlocks
  rw [matchingBlocksAux_self w hw]
  simp [mergeBlocks, (List.length_pos.2 hw).ne']

theorem alignOps_self (w : List Str) (hw : w ≠ []) :
    alignOps w w = [Opcode.mk DTag.equal 0 w.length 0 w.length] := by
  have hn : 0 < w.length := List.length_pos.2 hw
  unfold alignOps
  rw [matchingBlocks_self w hw]
  simp [getOpcodesAux, hn]

/-- Claim C4: for every NON-EMPTY word sequence `w`, aligning `w` with
itself yields exactly one opcode, tagged `equal` and spanning the whole
sequence on both sides, and the derived statistics report 0
changed/added/deleted words, `unchanged` equal to the word count,
`percentage_changed = 0` and `percentage_unchanged = 100`.  (The claim
as stated, quantified over EVERY word sequence, fails at `w = []`: see
the counterexample.) -/
theorem c4_theorem (w : List Str) (hw : w ≠ []) :
    alignOps w w = [Opcode.mk DTag.equal 0 w.length 0 w.length] ∧
    (statsOfOpcodes w w (alignOps w w)).changed = 0 ∧
    (statsOfOpcodes w w (alignOps w w)).added = 0 ∧
    (statsOfOpcodes w w (alignOps w w)).deleted = 0 ∧
    (statsOfOpcodes w w (alignOps w w)).unchanged = w.length ∧
    (statsOfOpcodes w w (alignOps w w)).percentage_changed = 0 ∧
    (statsOfOpcodes w w (alignOps w w)).percentage_unchanged = 100 := by
  have hn : 0 < w.length := List.length_pos.2 hw
  have ha := alignOps_self w hw
  have hmax : max w.length 1 = w.length := by omega
  refine ⟨ha, ?_, ?_, ?_, ?_, ?_, ?_⟩ <;> rw [ha]
  · simp [statsOfOpcodes, statStep]
  · simp [statsOfOpcodes, statStep]
  · simp [statsOfOpcodes, statStep]
  · simp [statsOfOpcodes, statStep]
  · simp [statsOfOpcodes, statStep, hmax]
  · have hne : (w.length : ℚ) ≠ 0 := Nat.cast_ne_zero.2 (by omega)
    simp [statsOfOpcodes, statStep, hmax, div_self hne]

/-- Claim C4, counterexample to the universally quantified reading: on
the EMPTY word sequence, `get_opcodes` returns no opcode at all, not
exactly one `equal` opcode. -/
theorem c4_counterexample :
    alignOps ([] : List Str) [] = [] ∧ (alignOps ([] : List Str) []).length ≠ 1 := by
  constructor <;> decide

/-- Claim C4, witness: the amended theorem instantiated at the one-word
sequence `["a"]`. -/
theorem c4_witness :
    ([strL ("a")] : List Str) ≠ [] ∧
    alignOps [strL ("a")] [strL ("a")] = [Opcode.mk DTag.equal 0 1 0 1] ∧
    (statsOfOpcodes [strL ("a")] [strL ("a")]
      (alignOps [strL ("a")] [strL ("a")])).unchanged = 1 := by
  have h := c4_theorem [strL ("a")] (by decide)
  exact ⟨by decide, h.1, h.2.2.2.2.1⟩
